import Mathlib

/-! VulkanStream: buffered marshalling over an ordered transport

A shallow embedding of `goldfish_vk::VulkanStream::Impl`
(`system/vulkan_enc/VulkanStream.cpp`).

* The instance state (`mPool`, `mWritePos`, `mWriteBuffer`) is the record `Impl`; every
  member function is a function from a state to an `Outcome`.
* `mStream` is a borrowed `IOStream*`.  `IOStream` is an abstract interface, so the
  transport is a parameter: a deterministic transport answers each call as a function of
  the calls it has received so far.
* Integer widths: `int` has 32 bits and `size_t` has 64 bits.  Wrap-around is written out
  where the code mixes the two (`1 << n`, `written != mWritePos`) and in the `size_t`
  arithmetic on the cursor.  Byte counts of buffers handed in by the caller are natural
  numbers; the conversion of such a count to the `ssize_t` result keeps its value.
* `abort()` is the outcome `fatal`, carrying the state at the abort; C++ undefined
  behaviour is the outcome `undefined`.
* The state carries the trace of transport calls, each stamped with the cursor and the
  write buffer at the moment of the call.  The code never inspects the trace; it stands
  for what the transport has seen so far.
-/

namespace goldfish_vk

/-- One octet. -/
abbrev Byte := Fin 256

/-- Number of values of a `size_t`. -/
def sizeModulus : Nat := 2 ^ 64

/-- Largest element count a `std::vector<uint8_t>` accepts (`max_size()`). -/
def vectorMaxSize : Nat := 2 ^ 63 - 1

/-- Conversion of a signed integer to `size_t`. -/
def toSizeT (x : Int) : Nat := (x % (2 : Int) ^ 64).toNat

/-- The values an `int` can hold. -/
def IsCInt (x : Int) : Prop := -(2 : Int) ^ 31 ≤ x ∧ x < (2 : Int) ^ 31

instance (x : Int) : Decidable (IsCInt x) := by
  unfold IsCInt
  exact inferInstance

/-- The expression `1 << n` on `int`: the value for `n ≤ 30`, `INT_MIN` for `n = 31`
(the bit pattern `0x80000000`), and no defined value once `n` reaches the width. -/
def shlOne (n : Nat) : Option Int :=
  if n < 31 then some ((2 : Int) ^ n)
  else if n = 31 then some (-(2 : Int) ^ 31)
  else none

/-! ## Transport -/

/-- A call made on the transport, with the answer it gave. -/
inductive Call where
  | writeFully (data : List Byte) (len : Nat) (written : Int)
  | readback (size : Nat) (result : Option (List Byte))
  deriving DecidableEq, Repr

/-- The transport behind `mStream`.  `writeFully h data len` is the `int` returned by
`writeFully(ptr, len)` when `ptr` points at `data` and the earlier calls were `h`;
`readback h size` is `none` when `readback(ptr, size)` reports failure and otherwise the
bytes it stored at `ptr`. -/
structure IOStream where
  writeFully : List Call → List Byte → Nat → Int
  readback : List Call → Nat → Option (List Byte)

/-- A trace entry: the call, plus the cursor and write buffer when it was issued. -/
structure Event where
  call : Call
  cursor : Nat
  buffer : List Byte
  deriving DecidableEq, Repr

/-! ## Arena -/

/-- A pointer into the arena: `none` is `nullptr`, `some a` the start of block `a`. -/
abbrev Ptr := Option Nat

/-- A block handed out by the arena. -/
inductive Block where
  | chars (data : List Byte)
  | ptrs (slots : List Ptr)
  deriving DecidableEq, Repr

/-- Modelled from the spec: `android::base::Pool` (android/base/Pool.h) is not among the
sources.  The arena hands out blocks that are never individually freed; it is the list
of blocks handed out so far, and the address of a block is its position. -/
abbrev Pool := List Block

/-- Modelled from the spec: `Pool::alloc` / `Pool::allocArray<T>` is not among the
sources.  Returns a pointer to a new block and the arena holding it. -/
def Pool.allocBlock (p : Pool) (b : Block) : Nat × Pool := (p.length, p ++ [b])

/-- Where a `char**` output argument points: at a variable of the caller, or at slot
`idx` of the pointer array in block `arr`. -/
inductive Loc where
  | caller
  | slot (arr : Nat) (idx : Nat)
  deriving DecidableEq, Repr

/-- The assignment `*forOutput = p`. -/
def Pool.storePtr (pool : Pool) (loc : Loc) (p : Ptr) : Pool :=
  match loc with
  | Loc.caller => pool
  | Loc.slot arr idx =>
    match pool[arr]? with
    | some (Block.ptrs slots) => pool.set arr (Block.ptrs (slots.set idx p))
    | _ => pool

/-- The effect of storing `data` at the start of a region that held `dest`. -/
def overlay (dest data : List Byte) : List Byte := data ++ dest.drop data.length

/-- The value of four bytes read as a big-endian 32-bit number. -/
def be32Value (bs : List Byte) : Nat :=
  (bs.getD 0 0).val * 2 ^ 24 + (bs.getD 1 0).val * 2 ^ 16 + (bs.getD 2 0).val * 2 ^ 8
    + (bs.getD 3 0).val

/-! ## The stream -/

/-- State of a `VulkanStream::Impl`. -/
structure Impl where
  mPool : Pool
  mWritePos : Nat
  mWriteBuffer : List Byte
  trace : List Event
  deriving DecidableEq, Repr

/-- A freshly constructed stream. -/
def Impl.fresh : Impl := { mPool := [], mWritePos := 0, mWriteBuffer := [], trace := [] }

/-- The calls the transport has received. -/
def Impl.calls (s : Impl) : List Call := s.trace.map Event.call

/-- The state after one more transport call. -/
def Impl.log (s : Impl) (c : Call) : Impl :=
  { s with trace := s.trace ++ [{ call := c, cursor := s.mWritePos, buffer := s.mWriteBuffer }] }

/-- The cursor lies within the buffer and the buffer within `max_size()`. -/
def Impl.WF (s : Impl) : Prop :=
  s.mWritePos ≤ s.mWriteBuffer.length ∧ s.mWriteBuffer.length ≤ vectorMaxSize

instance (s : Impl) : Decidable s.WF := by
  unfold Impl.WF
  exact inferInstance

/-- How a member function ends. -/
inductive Outcome (α : Type) where
  | ok (value : α) (s : Impl)
  | fatal (s : Impl)
  | undefined
  deriving DecidableEq, Repr

/-- Sequencing: run `k` on a normal return, stop at an abort or undefined behaviour. -/
def Outcome.andThen {α β : Type} (o : Outcome α) (k : α → Impl → Outcome β) : Outcome β :=
  match o with
  | Outcome.ok a s => k a s
  | Outcome.fatal s => Outcome.fatal s
  | Outcome.undefined => Outcome.undefined

/-- The member `valid()`. -/
def valid (_s : Impl) : Bool := true

/-- The member `alloc(ptrAddr, bytes)`; the result is the value stored in `*ptrAddr`. -/
def alloc (s : Impl) (bytes : Nat) : Ptr × Impl :=
  if bytes = 0 then (none, s)
  else
    let r := s.mPool.allocBlock (Block.chars (List.replicate bytes 0))
    (some r.1, { s with mPool := r.2 })

/-- The member `oustandingWriteBuffer()`. -/
def oustandingWriteBuffer (s : Impl) : Nat := s.mWritePos

/-- The member `remainingWriteBufferSize()`: a `size_t` subtraction. -/
def remainingWriteBufferSize (s : Impl) : Nat :=
  toSizeT ((s.mWriteBuffer.length : Int) - (s.mWritePos : Int))

/-- The call `std::vector<uint8_t>::resize(n)`: `none` when `n` exceeds `max_size()`
(`length_error`, which ends the process), otherwise the first `n` old elements followed
by zeros. -/
def vectorResize (v : List Byte) (n : Nat) : Option (List Byte) :=
  if n > vectorMaxSize then none
  else some (v.take n ++ List.replicate (n - v.length) 0)

/-- The member `commitWrite()`.  The transport is handed `mWriteBuffer.data()` and
`mWritePos`, that is the bytes `[0, mWritePos)` of the buffer.  In `written != mWritePos`
the `int` is converted to `size_t` before the comparison. -/
def commitWrite (io : IOStream) (s : Impl) : Outcome Unit :=
  -- if (!valid()) abort();
  if !valid s then Outcome.fatal s
  else
    -- int written = mStream->writeFully(mWriteBuffer.data(), mWritePos);
    let written := io.writeFully s.calls (s.mWriteBuffer.take s.mWritePos) s.mWritePos
    let s1 := s.log (Call.writeFully (s.mWriteBuffer.take s.mWritePos) s.mWritePos written)
    -- if (written != mWritePos) abort();
    if toSizeT written ≠ toSizeT (s.mWritePos : Int) then Outcome.fatal s1
    -- mWritePos = 0;
    else Outcome.ok () { s1 with mWritePos := 0 }

/-- The member `bufferedWrite(buffer, size)`, with `size` the length of `buffer`.
The argument of `resize` is the `int` value of `1 << (mWritePos + size)` converted to
`size_t`; the `memcpy` is defined only when `[mWritePos, mWritePos + size)` lies within
the buffer. -/
def bufferedWrite (s : Impl) (buffer : List Byte) : Outcome Nat :=
  let size := buffer.length
  let resized : Outcome Unit :=
    -- if (size > remainingWriteBufferSize()) mWriteBuffer.resize(1 << (mWritePos + size));
    if size > remainingWriteBufferSize s then
      match shlOne ((s.mWritePos + size) % sizeModulus) with
      | none => Outcome.undefined
      | some n =>
        match vectorResize s.mWriteBuffer (toSizeT n) with
        | none => Outcome.fatal s
        | some v => Outcome.ok () { s with mWriteBuffer := v }
    else Outcome.ok () s
  resized.andThen fun _ s1 =>
    -- memcpy(mWriteBuffer.data() + mWritePos, buffer, size); mWritePos += size; return size;
    if s1.mWritePos + size ≤ s1.mWriteBuffer.length then
      Outcome.ok size
        { s1 with
          mWriteBuffer :=
            s1.mWriteBuffer.take s1.mWritePos ++ buffer
              ++ s1.mWriteBuffer.drop (s1.mWritePos + size)
          mWritePos := (s1.mWritePos + size) % sizeModulus }
    else Outcome.undefined

/-- The member `write(buffer, size)`. -/
def write (s : Impl) (buffer : List Byte) : Outcome Nat := bufferedWrite s buffer

/-- The member `read(buffer, size)`.  The value is the pair of the bytes the transport
stored in `buffer` and the returned count. -/
def read (io : IOStream) (s : Impl) (size : Nat) : Outcome (List Byte × Nat) :=
  -- commitWrite();
  (commitWrite io s).andThen fun _ s1 =>
    -- if (!mStream->readback(buffer, size)) abort(); return size;
    let r := io.readback s1.calls size
    let s2 := s1.log (Call.readback size r)
    match r with
    | none => Outcome.fatal s2
    | some data => Outcome.ok (data.take size, size) s2

/-- Modelled from the spec: `android::base::Stream::getBe32` is inherited from a base
class that is not among the sources.  It reads four bytes through `read` into a zeroed
32-bit variable and returns them as a big-endian number. -/
def getBe32 (io : IOStream) (s : Impl) : Outcome Nat :=
  (read io s 4).andThen fun r s1 =>
    Outcome.ok (be32Value (overlay (List.replicate 4 0) r.1)) s1

/-- The member `loadStringInPlace(forOutput)`; the value is the pointer stored in
`*forOutput`.  `len` is below `2^32`, so `len + 1` does not wrap in `size_t`.  The new
block has `len + 1` bytes, all zero after the `memset`; `read` then stores the delivered
bytes at its start. -/
def loadStringInPlace (io : IOStream) (forOutput : Loc) (s : Impl) : Outcome Ptr :=
  -- size_t len = this->getBe32();
  (getBe32 io s).andThen fun len s1 =>
    -- *forOutput = mPool.allocArray<char>(len + 1);
    let a := s1.mPool.allocBlock (Block.chars (List.replicate (len + 1) 0))
    let s2 := { s1 with mPool := a.2.storePtr forOutput (some a.1) }
    -- memset(*forOutput, 0x0, len + 1);
    let s3 := { s2 with mPool := s2.mPool.set a.1 (Block.chars (List.replicate (len + 1) 0)) }
    -- if (len > 0) this->read(*forOutput, len);
    if len > 0 then
      (read io s3 len).andThen fun r s4 =>
        Outcome.ok (some a.1)
          { s4 with
            mPool :=
              s4.mPool.set a.1 (Block.chars (overlay (List.replicate (len + 1) 0) r.1)) }
    else Outcome.ok (some a.1) s3

/-- The loop of `loadStringArrayInPlace`: `n` iterations starting at index `i`. -/
def loadStringsFrom (io : IOStream) (arr : Nat) : Nat → Nat → Impl → Outcome Unit
  | 0, _, s => Outcome.ok () s
  | n + 1, i, s =>
    (loadStringInPlace io (Loc.slot arr i) s).andThen fun _ s1 =>
      loadStringsFrom io arr n (i + 1) s1

/-- The member `loadStringArrayInPlace(forOutput)`; the value is the pointer stored in
`*forOutput`. -/
def loadStringArrayInPlace (io : IOStream) (s : Impl) : Outcome Ptr :=
  -- size_t count = this->getBe32();
  (getBe32 io s).andThen fun count s1 =>
    -- if (!count) { *forOutput = nullptr; return; }
    if count = 0 then Outcome.ok none s1
    else
      -- *forOutput = mPool.allocArray<char *>(count);
      let a := s1.mPool.allocBlock (Block.ptrs (List.replicate count none))
      let s2 := { s1 with mPool := a.2 }
      (loadStringsFrom io a.1 count 0 s2).andThen fun _ s3 => Outcome.ok (some a.1) s3

/-! ## Wire format and transports used to exercise the stream -/

/-- The four bytes of a 32-bit number, most significant first. -/
def be32Bytes (n : Nat) : List Byte :=
  [Fin.ofNat (n / 2 ^ 24), Fin.ofNat (n / 2 ^ 16), Fin.ofNat (n / 2 ^ 8), Fin.ofNat n]

/-- Wire form of a string: its length as a big-endian 32-bit number, then its bytes. -/
def encodeString (b : List Byte) : List Byte := be32Bytes b.length ++ b

/-- Wire form of the strings of an array, one after the other. -/
def encodeStrings : List (List Byte) → List Byte
  | [] => []
  | b :: bs => encodeString b ++ encodeStrings bs

/-- Wire form of a string array: the count as a big-endian 32-bit number, then the
strings. -/
def encodeStringArray (ss : List (List Byte)) : List Byte :=
  be32Bytes ss.length ++ encodeStrings ss

/-- Number of bytes the readback calls of a history asked for. -/
def consumed : List Call → Nat
  | [] => 0
  | Call.readback size _ :: h => size + consumed h
  | Call.writeFully _ _ _ :: h => consumed h

/-- From history `h` on, the transport takes every `writeFully` whole. -/
def AcceptsWrites (io : IOStream) (h : List Call) : Prop :=
  ∀ (ext : List Call) (data : List Byte) (len : Nat),
    io.writeFully (h ++ ext) data len = (len : Int)

/-- From history `h` on, the readback calls are served from the byte sequence `bs`:
a call for `size` bytes made after `k` bytes were taken delivers the next `size` bytes of
`bs`, as long as `bs` has them. -/
def Delivers (io : IOStream) (h : List Call) (bs : List Byte) : Prop :=
  ∀ (ext : List Call) (size : Nat), consumed ext + size ≤ bs.length →
    io.readback (h ++ ext) size = some ((bs.drop (consumed ext)).take size)

/-- A transport that takes every write whole and serves readbacks from `inbound`,
failing once `inbound` is exhausted. -/
def pipe (inbound : List Byte) : IOStream where
  writeFully := fun _ _ len => (len : Int)
  readback := fun h size =>
    if consumed h + size ≤ inbound.length then some ((inbound.drop (consumed h)).take size)
    else none

/-- A transport whose `writeFully` always reports one fewer than the count asked for. -/
def shortPipe (inbound : List Byte) : IOStream where
  writeFully := fun _ _ len => (len : Int) - 1
  readback := (pipe inbound).readback

/-- Appending the chunks in order; stops at the first append that does not return. -/
def writeAll : Impl → List (List Byte) → Outcome Unit
  | s, [] => Outcome.ok () s
  | s, c :: cs => (write s c).andThen fun _ s1 => writeAll s1 cs

/-- The `writeFully` call a flush of `s` makes, with the transport's answer. -/
def Impl.flushCall (io : IOStream) (s : Impl) : Call :=
  Call.writeFully (s.mWriteBuffer.take s.mWritePos) s.mWritePos
    (io.writeFully s.calls (s.mWriteBuffer.take s.mWritePos) s.mWritePos)

/-- The state a flush of `s` returns in: the call is on the trace and the cursor is 0. -/
def Impl.flushed (io : IOStream) (s : Impl) : Impl :=
  { s.log (s.flushCall io) with mWritePos := 0 }

/-- The `readback` call for `size` bytes made in state `s`, with the transport's answer. -/
def Impl.readCall (io : IOStream) (s : Impl) (size : Nat) : Call :=
  Call.readback size (io.readback s.calls size)

/-- In state `s` the transport takes every write whole and serves readbacks from `bs`. -/
def Serves (io : IOStream) (s : Impl) (bs : List Byte) : Prop :=
  AcceptsWrites io s.calls ∧ Delivers io s.calls bs

/-- The arena block of a decoded string: its bytes and the terminating zero. -/
def stringBlock (b : List Byte) : Block := Block.chars (b ++ [0])

/-- Number of slots of the pointer array in block `arr`. -/
def Pool.slotCount (pool : Pool) (arr : Nat) : Option Nat :=
  match pool[arr]? with
  | some (Block.ptrs slots) => some slots.length
  | _ => none

/-- The bytes of the block that slot `i` of the pointer array in block `arr` points at. -/
def Pool.stringAt (pool : Pool) (arr i : Nat) : Option (List Byte) :=
  match pool[arr]? with
  | some (Block.ptrs slots) =>
    match slots[i]? with
    | some (some p) =>
      match pool[p]? with
      | some (Block.chars d) => some d
      | _ => none
    | _ => none
  | _ => none

/-! ## Reading the trace -/

/-- The entry is a flush: a `writeFully` of exactly the bytes `[0, cursor)` of the write
buffer, with the cursor as its length. -/
def Event.IsFlush (e : Event) : Prop :=
  match e.call with
  | Call.writeFully data len _ => data = e.buffer.take e.cursor ∧ len = e.cursor
  | Call.readback _ _ => False

/-- The entry is a `writeFully` whose reported count compares equal to the length asked
for. -/
def Event.Accepted (e : Event) : Prop :=
  match e.call with
  | Call.writeFully _ len written => toSizeT written = toSizeT (len : Int)
  | Call.readback _ _ => False

/-- The entry is a `readback` issued while the cursor was zero. -/
def Event.IsReadAtZero (e : Event) : Prop :=
  match e.call with
  | Call.writeFully _ _ _ => False
  | Call.readback _ _ => e.cursor = 0

/-- The entry is a `readback`. -/
def Event.isReadback (e : Event) : Bool :=
  match e.call with
  | Call.writeFully _ _ _ => false
  | Call.readback _ _ => true

/-- An accepted flush directly followed by a readback issued at cursor zero. -/
def FlushThenRead (w r : Event) : Prop := w.IsFlush ∧ w.Accepted ∧ r.IsReadAtZero

/-- The entries are rounds of an accepted flush and a readback at cursor zero. -/
def FlushedReads : List Event → Prop
  | [] => True
  | [_] => False
  | w :: r :: rest => FlushThenRead w r ∧ FlushedReads rest

/-- The entries are rounds of an accepted flush and a readback at cursor zero, after
which there may be one refused flush with nothing behind it. -/
def FlushFirst : List Event → Prop
  | [] => True
  | [w] => w.IsFlush ∧ ¬ w.Accepted
  | w :: r :: rest => FlushThenRead w r ∧ FlushFirst rest

/-- What an operation started in `s` added to the trace keeps every readback behind its
flush: complete rounds when it returns, rounds possibly ended by a refused flush when it
aborts; the operation has no undefined behaviour. -/
def Outcome.Disciplined {α : Type} (s : Impl) : Outcome α → Prop
  | Outcome.ok _ s1 => ∃ evs, s1.trace = s.trace ++ evs ∧ FlushedReads evs
  | Outcome.fatal s1 => ∃ evs, s1.trace = s.trace ++ evs ∧ FlushFirst evs
  | Outcome.undefined => False

/-! ## Reachable states and frame conditions -/

/-- The states a stream over the transport `io` can be in: the state after construction,
and the state in which any operation started in such a state returns. -/
inductive Reachable (io : IOStream) : Impl → Prop where
  | fresh : Reachable io Impl.fresh
  | byAlloc (s : Impl) (bytes : Nat) : Reachable io s → Reachable io (alloc s bytes).2
  | byWrite (s s1 : Impl) (buffer : List Byte) (n : Nat) :
      Reachable io s → write s buffer = Outcome.ok n s1 → Reachable io s1
  | byCommitWrite (s s1 : Impl) :
      Reachable io s → commitWrite io s = Outcome.ok () s1 → Reachable io s1
  | byRead (s s1 : Impl) (size : Nat) (r : List Byte × Nat) :
      Reachable io s → read io s size = Outcome.ok r s1 → Reachable io s1
  | byLoadString (s s1 : Impl) (forOutput : Loc) (p : Ptr) :
      Reachable io s → loadStringInPlace io forOutput s = Outcome.ok p s1 → Reachable io s1
  | byLoadStringArray (s s1 : Impl) (p : Ptr) :
      Reachable io s → loadStringArrayInPlace io s = Outcome.ok p s1 → Reachable io s1

/-- Every state the outcome carries has the write buffer of `s`, and as cursor the
cursor of `s` or 0. -/
def Outcome.KeepsBuffer {α : Type} (s : Impl) : Outcome α → Prop
  | Outcome.ok _ s1 =>
    s1.mWriteBuffer = s.mWriteBuffer ∧ (s1.mWritePos = s.mWritePos ∨ s1.mWritePos = 0)
  | Outcome.fatal s1 =>
    s1.mWriteBuffer = s.mWriteBuffer ∧ (s1.mWritePos = s.mWritePos ∨ s1.mWritePos = 0)
  | Outcome.undefined => True

/-- The state an outcome carries, if it carries one. -/
def Outcome.state? {α : Type} : Outcome α → Option Impl
  | Outcome.ok _ s1 => some s1
  | Outcome.fatal s1 => some s1
  | Outcome.undefined => none

/-- The entry is a `writeFully`. -/
def Event.isWriteFully (e : Event) : Bool :=
  match e.call with
  | Call.writeFully _ _ _ => true
  | Call.readback _ _ => false

end goldfish_vk

/-! # Lemmas -/

namespace goldfish_vk

theorem FlushedReads.flushFirst : ∀ (evs : List Event), FlushedReads evs → FlushFirst evs
  | [], _ => trivial
  | [_], h => h.elim
  | _ :: _ :: rest, h => ⟨h.1, FlushedReads.flushFirst rest h.2⟩

theorem FlushedReads.append : ∀ (a b : List Event), FlushedReads a → FlushedReads b →
    FlushedReads (a ++ b)
  | [], _, _, hb => hb
  | [_], _, h, _ => h.elim
  | _ :: _ :: rest, b, h, hb => ⟨h.1, FlushedReads.append rest b h.2 hb⟩

theorem FlushedReads.append_flushFirst : ∀ (a b : List Event), FlushedReads a →
    FlushFirst b → FlushFirst (a ++ b)
  | [], _, _, hb => hb
  | [_], _, h, _ => h.elim
  | _ :: _ :: rest, b, h, hb => ⟨h.1, FlushedReads.append_flushFirst rest b h.2 hb⟩

theorem Outcome.Disciplined.refl {α : Type} (a : α) (s s1 : Impl) (h : s1.trace = s.trace) :
    (Outcome.ok a s1).Disciplined s :=
  ⟨[], by simp [h], trivial⟩

theorem Outcome.Disciplined.andThen {α β : Type} (s : Impl) (o : Outcome α)
    (k : α → Impl → Outcome β) (ho : o.Disciplined s)
    (hk : ∀ a s1, (k a s1).Disciplined s1) : (o.andThen k).Disciplined s := by
  cases o with
  | undefined => exact ho.elim
  | fatal s1 => exact ho
  | ok a s1 =>
    obtain ⟨e1, h1, hr1⟩ := ho
    have h2 := hk a s1
    simp only [Outcome.andThen]
    cases hres : k a s1 with
    | undefined => rw [hres] at h2; exact h2.elim
    | fatal s2 =>
      rw [hres] at h2
      obtain ⟨e2, h2, hr2⟩ := h2
      exact ⟨e1 ++ e2, by rw [h2, h1, List.append_assoc], hr1.append_flushFirst e1 e2 hr2⟩
    | ok b s2 =>
      rw [hres] at h2
      obtain ⟨e2, h2, hr2⟩ := h2
      exact ⟨e1 ++ e2, by rw [h2, h1, List.append_assoc], hr1.append e1 e2 hr2⟩

@[simp] theorem Impl.log_trace (s : Impl) (c : Call) :
    (s.log c).trace = s.trace ++ [{ call := c, cursor := s.mWritePos, buffer := s.mWriteBuffer }] := rfl

@[simp] theorem Impl.log_mPool (s : Impl) (c : Call) : (s.log c).mPool = s.mPool := rfl

@[simp] theorem Impl.log_mWritePos (s : Impl) (c : Call) : (s.log c).mWritePos = s.mWritePos := rfl

@[simp] theorem Impl.log_mWriteBuffer (s : Impl) (c : Call) :
    (s.log c).mWriteBuffer = s.mWriteBuffer := rfl

@[simp] theorem Impl.log_calls (s : Impl) (c : Call) : (s.log c).calls = s.calls ++ [c] := by
  simp [Impl.calls, Impl.log]

@[simp] theorem Impl.flushed_trace (io : IOStream) (s : Impl) :
    (s.flushed io).trace
      = s.trace ++ [{ call := s.flushCall io, cursor := s.mWritePos, buffer := s.mWriteBuffer }] := rfl

@[simp] theorem Impl.flushed_mPool (io : IOStream) (s : Impl) : (s.flushed io).mPool = s.mPool := rfl

@[simp] theorem Impl.flushed_mWritePos (io : IOStream) (s : Impl) : (s.flushed io).mWritePos = 0 := rfl

@[simp] theorem Impl.flushed_mWriteBuffer (io : IOStream) (s : Impl) :
    (s.flushed io).mWriteBuffer = s.mWriteBuffer := rfl

@[simp] theorem Impl.flushed_calls (io : IOStream) (s : Impl) :
    (s.flushed io).calls = s.calls ++ [s.flushCall io] := by
  simp [Impl.calls, Impl.flushed, Impl.log]

/-- The flush of `s` is taken whole: the reported count compares equal to the cursor. -/
theorem commitWrite_eq (io : IOStream) (s : Impl) :
    commitWrite io s =
      if toSizeT (io.writeFully s.calls (s.mWriteBuffer.take s.mWritePos) s.mWritePos)
          = toSizeT (s.mWritePos : Int) then
        Outcome.ok () (s.flushed io)
      else Outcome.fatal (s.log (s.flushCall io)) := by
  unfold commitWrite
  simp only [valid, Bool.not_true, Bool.false_eq_true, if_false, ne_eq, ite_not]
  rfl

theorem read_eq (io : IOStream) (s : Impl) (size : Nat) :
    read io s size =
      if toSizeT (io.writeFully s.calls (s.mWriteBuffer.take s.mWritePos) s.mWritePos)
          = toSizeT (s.mWritePos : Int) then
        match io.readback (s.flushed io).calls size with
        | none => Outcome.fatal ((s.flushed io).log ((s.flushed io).readCall io size))
        | some data =>
          Outcome.ok (data.take size, size) ((s.flushed io).log ((s.flushed io).readCall io size))
      else Outcome.fatal (s.log (s.flushCall io)) := by
  unfold read
  rw [commitWrite_eq]
  split
  · simp only [Outcome.andThen, Impl.readCall]
  · rfl

theorem read_disciplined (io : IOStream) (s : Impl) (size : Nat) :
    (read io s size).Disciplined s := by
  rw [read_eq]
  split
  · rename_i hacc
    have hround : FlushedReads
        [{ call := s.flushCall io, cursor := s.mWritePos, buffer := s.mWriteBuffer },
         { call := (s.flushed io).readCall io size, cursor := 0, buffer := s.mWriteBuffer }] := by
      simp [FlushedReads, FlushThenRead, Event.IsFlush, Event.Accepted, Event.IsReadAtZero,
        Impl.flushCall, Impl.readCall, hacc]
    split
    · exact ⟨_, by simp, hround.flushFirst⟩
    · exact ⟨_, by simp, hround⟩
  · rename_i hacc
    exact ⟨_, rfl, by simp [FlushFirst, Event.IsFlush, Event.Accepted, Impl.flushCall, hacc]⟩

theorem Outcome.Disciplined.congr {α : Type} (s t : Impl) (o : Outcome α)
    (h : s.trace = t.trace) (ho : o.Disciplined s) : o.Disciplined t := by
  cases o with
  | undefined => exact ho
  | fatal s1 => simpa [Outcome.Disciplined, h] using ho
  | ok a s1 => simpa [Outcome.Disciplined, h] using ho

theorem getBe32_disciplined (io : IOStream) (s : Impl) : (getBe32 io s).Disciplined s :=
  Outcome.Disciplined.andThen s _ _ (read_disciplined io s 4)
    (fun _ s1 => Outcome.Disciplined.refl _ s1 s1 rfl)

theorem loadStringInPlace_disciplined (io : IOStream) (forOutput : Loc) (s : Impl) :
    (loadStringInPlace io forOutput s).Disciplined s := by
  refine Outcome.Disciplined.andThen s _ _ (getBe32_disciplined io s) (fun len s1 => ?_)
  dsimp only
  split
  · refine Outcome.Disciplined.congr _ s1 _ rfl ?_
    exact Outcome.Disciplined.andThen _ _ _ (read_disciplined io _ len)
      (fun _ s4 => Outcome.Disciplined.refl _ s4 _ rfl)
  · exact Outcome.Disciplined.refl _ s1 _ rfl

theorem loadStringsFrom_disciplined (io : IOStream) (arr : Nat) :
    ∀ (n i : Nat) (s : Impl), (loadStringsFrom io arr n i s).Disciplined s
  | 0, _, s => Outcome.Disciplined.refl _ s s rfl
  | n + 1, i, s =>
    Outcome.Disciplined.andThen s _ _ (loadStringInPlace_disciplined io _ s)
      (fun _ s1 => loadStringsFrom_disciplined io arr n (i + 1) s1)

theorem loadStringArrayInPlace_disciplined (io : IOStream) (s : Impl) :
    (loadStringArrayInPlace io s).Disciplined s := by
  refine Outcome.Disciplined.andThen s _ _ (getBe32_disciplined io s) (fun count s1 => ?_)
  dsimp only
  split
  · exact Outcome.Disciplined.refl _ s1 _ rfl
  · refine Outcome.Disciplined.congr _ s1 _ rfl ?_
    exact Outcome.Disciplined.andThen _ _ _ (loadStringsFrom_disciplined io _ count 0 _)
      (fun _ s3 => Outcome.Disciplined.refl _ s3 _ rfl)

theorem be32Value_be32Bytes (n : Nat) (h : n < 2 ^ 32) : be32Value (be32Bytes n) = n := by
  simp only [be32Value, be32Bytes, List.getD_cons_zero, List.getD_cons_succ, Fin.ofNat]
  simp
  omega

theorem be32Bytes_length (n : Nat) : (be32Bytes n).length = 4 := rfl

theorem consumed_append (a b : List Call) : consumed (a ++ b) = consumed a + consumed b := by
  induction a with
  | nil => simp [consumed]
  | cons c a ih =>
    cases c with
    | writeFully d l w => simpa [consumed] using ih
    | readback sz r => simp [consumed, ih, Nat.add_assoc]

/-- A transport that serves `bs` answers a `read` of `size ≤ |bs|` bytes with the next
`size` bytes and goes on serving the rest. -/
theorem read_serves (io : IOStream) (s : Impl) (bs : List Byte) (size : Nat)
    (h : Serves io s bs) (hsize : size ≤ bs.length) :
    ∃ s1, read io s size = Outcome.ok (bs.take size, size) s1
      ∧ Serves io s1 (bs.drop size) ∧ s1.mPool = s.mPool ∧ s1.mWritePos = 0
      ∧ s1.mWriteBuffer = s.mWriteBuffer := by
  obtain ⟨hw, hd⟩ := h
  have hacc : toSizeT (io.writeFully s.calls (s.mWriteBuffer.take s.mWritePos) s.mWritePos)
      = toSizeT (s.mWritePos : Int) := by
    have := hw [] (s.mWriteBuffer.take s.mWritePos) s.mWritePos
    rw [List.append_nil] at this
    rw [this]
  have hrb : io.readback (s.flushed io).calls size = some (bs.take size) := by
    have := hd [s.flushCall io] size (by simpa [consumed, Impl.flushCall] using hsize)
    simpa [consumed, Impl.flushCall] using this
  refine ⟨(s.flushed io).log ((s.flushed io).readCall io size), ?_, ⟨?_, ?_⟩, rfl, rfl, rfl⟩
  · rw [read_eq, if_pos hacc, hrb]
    simp
  · intro ext data len
    have := hw ([s.flushCall io, (s.flushed io).readCall io size] ++ ext) data len
    simpa using this
  · intro ext sz hsz
    have hc : consumed ([s.flushCall io, (s.flushed io).readCall io size] ++ ext)
        = size + consumed ext := by
      simp [consumed, Impl.flushCall, Impl.readCall]
    have := hd ([s.flushCall io, (s.flushed io).readCall io size] ++ ext) sz (by
      rw [hc]
      simp only [List.length_drop] at hsz
      omega)
    rw [hc] at this
    simpa [List.drop_drop, Nat.add_comm] using this

theorem getBe32_serves (io : IOStream) (s : Impl) (n : Nat) (rest : List Byte)
    (h : Serves io s (be32Bytes n ++ rest)) (hn : n < 2 ^ 32) :
    ∃ s1, getBe32 io s = Outcome.ok n s1
      ∧ Serves io s1 rest ∧ s1.mPool = s.mPool ∧ s1.mWritePos = 0
      ∧ s1.mWriteBuffer = s.mWriteBuffer := by
  obtain ⟨s1, hread, hserves, hp, hc, hb⟩ :=
    read_serves io s (be32Bytes n ++ rest) 4 h (by simp [be32Bytes_length])
  refine ⟨s1, ?_, ?_, hp, hc, hb⟩
  · unfold getBe32
    rw [hread]
    simp only [Outcome.andThen]
    have htake : (be32Bytes n ++ rest).take 4 = be32Bytes n := by
      simp [be32Bytes]
    rw [htake]
    have hov : overlay (List.replicate 4 0) (be32Bytes n) = be32Bytes n := by
      simp [overlay, be32Bytes]
    rw [hov, be32Value_be32Bytes n hn]
  · have hdrop : (be32Bytes n ++ rest).drop 4 = rest := by
      simp [be32Bytes]
    rw [hdrop] at hserves
    exact hserves

theorem Pool.storePtr_length (pool : Pool) (loc : Loc) (p : Ptr) :
    (pool.storePtr loc p).length = pool.length := by
  unfold Pool.storePtr
  split
  · rfl
  · split <;> simp

theorem overlay_zeros (b : List Byte) :
    overlay (List.replicate (b.length + 1) 0) b = b ++ [0] := by
  simp [overlay, List.drop_replicate]

/-- A transport that serves the wire form of `b` makes `loadStringInPlace` return a
pointer to a new block holding `b` and a terminating zero. -/
theorem loadStringInPlace_serves (io : IOStream) (forOutput : Loc) (s : Impl)
    (b rest : List Byte) (h : Serves io s (encodeString b ++ rest))
    (hb : b.length < 2 ^ 32) :
    ∃ s1, loadStringInPlace io forOutput s = Outcome.ok (some s.mPool.length) s1
      ∧ Serves io s1 rest
      ∧ s1.mPool =
          ((s.mPool ++ [Block.chars (List.replicate (b.length + 1) 0)]).storePtr forOutput
            (some s.mPool.length)).set s.mPool.length (stringBlock b)
      ∧ s1.mWritePos = 0 ∧ s1.mWriteBuffer = s.mWriteBuffer := by
  unfold encodeString at h
  rw [List.append_assoc] at h
  obtain ⟨s1, hget, hserves, hp, hc, hbuf⟩ := getBe32_serves io s b.length (b ++ rest) h hb
  unfold loadStringInPlace
  rw [hget]
  simp only [Outcome.andThen, Pool.allocBlock, hp]
  by_cases hlen : b.length > 0
  · rw [if_pos hlen]
    obtain ⟨s4, hread, hserves4, hp4, hc4, hbuf4⟩ :=
      read_serves io
        { s1 with
          mPool :=
            ((s.mPool ++ [Block.chars (List.replicate (b.length + 1) 0)]).storePtr forOutput
              (some s.mPool.length)).set s.mPool.length
              (Block.chars (List.replicate (b.length + 1) 0)) }
        (b ++ rest) b.length hserves (by simp)
    rw [hread]
    refine ⟨_, rfl, ?_, ?_, hc4, ?_⟩
    · simpa using hserves4
    · simp only [hp4, List.take_left', List.set_set, overlay_zeros, stringBlock]
    · simpa [hbuf] using hbuf4
  · rw [if_neg hlen]
    have hnil : b = [] := List.length_eq_zero.mp (by omega)
    subst hnil
    exact ⟨_, rfl, by simpa using hserves, by simp [stringBlock], hc, hbuf⟩

theorem set_length_append_cons {α : Type} (l : List α) (x y : α) (r : List α) :
    (l ++ x :: r).set l.length y = l ++ y :: r := by
  induction l with
  | nil => rfl
  | cons a l ih => simp [ih]

theorem getElem?_length_append_cons {α : Type} (l : List α) (x : α) (r : List α) :
    (l ++ x :: r)[l.length]? = some x := by
  induction l with
  | nil => simp
  | cons a l ih => simpa using ih

/-- Storing the pointer of a newly allocated block in the next free slot of a pointer
array, then filling the new block. -/
theorem Pool.store_then_fill (pool P0 : Pool) (l r : List Ptr) (x p : Ptr)
    (blocks : List Block) (z y : Block) (i n : Nat)
    (hpool : pool = P0 ++ Block.ptrs (l ++ x :: r) :: blocks) (hi : i = l.length)
    (hn : n = pool.length) :
    ((pool ++ [z]).storePtr (Loc.slot P0.length i) p).set n y
      = P0 ++ Block.ptrs (l ++ p :: r) :: (blocks ++ [y]) := by
  subst hi hn hpool
  have hform : (P0 ++ Block.ptrs (l ++ x :: r) :: blocks) ++ [z]
      = P0 ++ Block.ptrs (l ++ x :: r) :: (blocks ++ [z]) := by simp
  rw [hform]
  unfold Pool.storePtr
  simp only [getElem?_length_append_cons, set_length_append_cons]
  have hsplit : P0 ++ Block.ptrs (l ++ p :: r) :: (blocks ++ [z])
      = (P0 ++ Block.ptrs (l ++ p :: r) :: blocks) ++ z :: [] := by simp
  have hlen : (P0 ++ Block.ptrs (l ++ x :: r) :: blocks).length
      = (P0 ++ Block.ptrs (l ++ p :: r) :: blocks).length := by
    simp
  rw [hsplit, hlen, set_length_append_cons]
  simp

theorem loadStringsFrom_serves (io : IOStream) (P0 : Pool) :
    ∀ (ss : List (List Byte)) (i : Nat) (s : Impl) (blocks : List Block) (rest : List Byte),
      s.mPool = P0 ++ Block.ptrs ((List.range i).map (fun j => some (P0.length + 1 + j))
          ++ List.replicate ss.length none) :: blocks →
      blocks.length = i →
      Serves io s (encodeStrings ss ++ rest) →
      (∀ b ∈ ss, b.length < 2 ^ 32) →
      ∃ s1, loadStringsFrom io P0.length ss.length i s = Outcome.ok () s1
        ∧ Serves io s1 rest
        ∧ s1.mPool = P0 ++ Block.ptrs
            ((List.range (i + ss.length)).map (fun j => some (P0.length + 1 + j)))
            :: (blocks ++ ss.map stringBlock)
        ∧ s1.mWriteBuffer = s.mWriteBuffer
  | [], i, s, blocks, rest, hpool, _, hserves, _ =>
    ⟨s, rfl, by simpa [encodeStrings] using hserves, by simpa using hpool, rfl⟩
  | b :: bs, i, s, blocks, rest, hpool, hlen, hserves, hbound => by
    have hserves1 : Serves io s (encodeString b ++ (encodeStrings bs ++ rest)) := by
      simpa [encodeStrings, List.append_assoc] using hserves
    obtain ⟨s1, hload, hs1, hp1, _, hbuf1⟩ :=
      loadStringInPlace_serves io (Loc.slot P0.length i) s b (encodeStrings bs ++ rest)
        hserves1 (hbound b (by simp))
    have hplen : s.mPool.length = P0.length + 1 + i := by
      rw [hpool]
      simp only [List.length_append, List.length_cons, hlen]
      omega
    have hp1b : s1.mPool = P0 ++ Block.ptrs
        ((List.range (i + 1)).map (fun j => some (P0.length + 1 + j))
          ++ List.replicate bs.length none) :: (blocks ++ [stringBlock b]) := by
      rw [hp1]
      rw [Pool.store_then_fill s.mPool P0
        ((List.range i).map (fun j => some (P0.length + 1 + j)))
        (List.replicate bs.length none) none (some s.mPool.length) blocks _ (stringBlock b)
        i s.mPool.length (by simpa [List.replicate_succ] using hpool) (by simp) rfl]
      simp [List.range_succ, hplen]
    obtain ⟨s2, hrest, hs2, hp2, hbuf2⟩ :=
      loadStringsFrom_serves io P0 bs (i + 1) s1 (blocks ++ [stringBlock b]) rest hp1b
        (by simp [hlen]) hs1 (fun c hc => hbound c (by simp [hc]))
    refine ⟨s2, ?_, hs2, ?_, ?_⟩
    · simp only [List.length_cons, loadStringsFrom, hload, Outcome.andThen]
      exact hrest
    · rw [hp2]
      simp [Nat.add_assoc, Nat.add_comm 1]
    · rw [hbuf2, hbuf1]

theorem pipe_acceptsWrites (inbound : List Byte) (h : List Call) :
    AcceptsWrites (pipe inbound) h := fun _ _ _ => rfl

theorem pipe_delivers (inbound : List Byte) : Delivers (pipe inbound) [] inbound := by
  intro ext size h
  simp [pipe, h]

theorem Pool.stringAt_array (P0 : Pool) (ss : List (List Byte)) (i : Nat)
    (hi : i < ss.length) :
    Pool.stringAt
        (P0 ++ Block.ptrs ((List.range ss.length).map (fun j => some (P0.length + 1 + j)))
          :: ss.map stringBlock) P0.length i
      = some (ss[i] ++ [0]) := by
  have hblock : (P0 ++ Block.ptrs ((List.range ss.length).map
        (fun j => (some (P0.length + 1 + j) : Ptr))) :: ss.map stringBlock)[P0.length + 1 + i]?
      = some (stringBlock ss[i]) := by
    rw [List.getElem?_append_right (by omega)]
    have : P0.length + 1 + i - P0.length = i + 1 := by omega
    rw [this]
    simp [hi]
  unfold Pool.stringAt
  simp only [getElem?_length_append_cons]
  simp only [List.getElem?_map, List.getElem?_range hi, Option.map_some']
  rw [hblock]
  rfl

theorem toSizeT_natCast (n : Nat) (h : n < 2 ^ 64) : toSizeT (n : Int) = n := by
  unfold toSizeT
  have h2 : ((2 : Int) ^ 64) = 18446744073709551616 := by norm_num
  rw [h2]
  omega

theorem toSizeT_ne_of_cint (w : Int) (n : Nat) (hw : IsCInt w) (hn : n ≤ vectorMaxSize) :
    toSizeT w ≠ toSizeT (n : Int) ↔ w ≠ (n : Int) := by
  unfold IsCInt at hw
  unfold vectorMaxSize at hn
  unfold toSizeT
  have h2 : ((2 : Int) ^ 64) = 18446744073709551616 := by norm_num
  have h3 : ((2 : Int) ^ 31) = 2147483648 := by norm_num
  rw [h2]
  rw [h3] at hw
  have h4 : (2 : Nat) ^ 63 - 1 = 9223372036854775807 := by norm_num
  rw [h4] at hn
  omega

/-- A `getBe32` that returns has made one accepted flush and one successful 4-byte
readback, and nothing else. -/
theorem getBe32_ok (io : IOStream) (s s1 : Impl) (n : Nat)
    (h : getBe32 io s = Outcome.ok n s1) :
    s1 = (s.flushed io).log ((s.flushed io).readCall io 4)
      ∧ ∃ d, io.readback (s.flushed io).calls 4 = some d := by
  unfold getBe32 at h
  rw [read_eq] at h
  split at h
  · cases hrb : io.readback (s.flushed io).calls 4 with
    | none =>
      rw [hrb] at h
      simp [Outcome.andThen] at h
    | some d =>
      rw [hrb] at h
      simp only [Outcome.andThen, Outcome.ok.injEq] at h
      exact ⟨h.2.symm, d, rfl⟩
  · simp [Outcome.andThen] at h

/-- A flush that returns, returns in the state `flushed`. -/
theorem commitWrite_ok (io : IOStream) (s s1 : Impl)
    (h : commitWrite io s = Outcome.ok () s1) :
    s1 = s.flushed io
      ∧ toSizeT (io.writeFully s.calls (s.mWriteBuffer.take s.mWritePos) s.mWritePos)
          = toSizeT (s.mWritePos : Int) := by
  rw [commitWrite_eq] at h
  split at h
  · rename_i hacc
    injection h with _ h
    exact ⟨h.symm, hacc⟩
  · cases h

theorem Impl.fresh_WF : Impl.fresh.WF := by decide

theorem remainingWriteBufferSize_of_WF (s : Impl) (h : s.WF) :
    remainingWriteBufferSize s = s.mWriteBuffer.length - s.mWritePos := by
  obtain ⟨h1, h2⟩ := h
  unfold vectorMaxSize at h2
  unfold remainingWriteBufferSize toSizeT
  have h64 : ((2 : Int) ^ 64) = 18446744073709551616 := by norm_num
  have h63 : (2 : Nat) ^ 63 - 1 = 9223372036854775807 := by norm_num
  rw [h64]
  rw [h63] at h2
  omega

theorem shlOne_some (e : Nat) (n : Int) (h : shlOne e = some n) :
    (e < 31 ∧ n = (2 : Int) ^ e) ∨ (e = 31 ∧ n = -(2 : Int) ^ 31) := by
  unfold shlOne at h
  split at h
  · left
    exact ⟨by assumption, by injection h with h; exact h.symm⟩
  · split at h
    · right
      exact ⟨by assumption, by injection h with h; exact h.symm⟩
    · cases h

theorem toSizeT_two_pow (e : Nat) (h : e < 31) : toSizeT ((2 : Int) ^ e) = 2 ^ e := by
  have hlt : (2 : Nat) ^ e < 2 ^ 64 := Nat.pow_lt_pow_right (by decide) (by omega)
  have := toSizeT_natCast (2 ^ e) hlt
  simpa using this

theorem two_pow_le_maxSize (e : Nat) (h : e < 31) : 2 ^ e ≤ vectorMaxSize := by
  have hle : (2 : Nat) ^ e ≤ 2 ^ 30 := Nat.pow_le_pow_right (by decide) (by omega)
  unfold vectorMaxSize
  have h63 : (2 : Nat) ^ 63 - 1 = 9223372036854775807 := by norm_num
  have h30 : (2 : Nat) ^ 30 = 1073741824 := by norm_num
  omega

theorem lt_two_pow_self (e : Nat) : e < 2 ^ e := Nat.lt_two_pow e

theorem memcpy_length (v buffer : List Byte) (pos : Nat) (h : pos + buffer.length ≤ v.length) :
    (v.take pos ++ buffer ++ v.drop (pos + buffer.length)).length = v.length := by
  simp only [List.length_append, List.length_take, List.length_drop]
  omega

theorem memcpy_take (v buffer : List Byte) (pos : Nat) (h : pos + buffer.length ≤ v.length) :
    (v.take pos ++ buffer ++ v.drop (pos + buffer.length)).take pos = v.take pos := by
  have hlen : (v.take pos).length = pos := by
    simp only [List.length_take]
    omega
  rw [List.append_assoc]
  exact List.take_left' hlen

theorem memcpy_drop_take (v buffer : List Byte) (pos : Nat)
    (h : pos + buffer.length ≤ v.length) :
    ((v.take pos ++ buffer ++ v.drop (pos + buffer.length)).drop pos).take buffer.length
      = buffer := by
  have hlen : (v.take pos).length = pos := by
    simp only [List.length_take]
    omega
  rw [List.append_assoc, List.drop_left' hlen]
  exact List.take_left' rfl

/-- What an append that returns has done, in a state whose cursor lies within the
buffer: it returns the chunk size, advances the cursor by it, keeps the pending bytes
and stores the chunk behind them, never shrinks the buffer and makes no transport
call. -/
theorem bufferedWrite_ok (s s1 : Impl) (buffer : List Byte) (n : Nat) (hwf : s.WF)
    (h : bufferedWrite s buffer = Outcome.ok n s1) :
    n = buffer.length ∧ s1.mWritePos = s.mWritePos + buffer.length ∧ s1.WF
      ∧ s1.mWriteBuffer.take s.mWritePos = s.mWriteBuffer.take s.mWritePos
      ∧ (s1.mWriteBuffer.drop s.mWritePos).take buffer.length = buffer
      ∧ s.mWriteBuffer.length ≤ s1.mWriteBuffer.length
      ∧ s1.mPool = s.mPool ∧ s1.trace = s.trace := by
  have hrem := remainingWriteBufferSize_of_WF s hwf
  obtain ⟨hpos, hcap⟩ := hwf
  have hmax : vectorMaxSize < sizeModulus := by decide
  unfold bufferedWrite at h
  rw [hrem] at h
  dsimp only at h
  by_cases hgrow : buffer.length > s.mWriteBuffer.length - s.mWritePos
  · rw [if_pos hgrow] at h
    cases hshl : shlOne ((s.mWritePos + buffer.length) % sizeModulus) with
    | none =>
      rw [hshl] at h
      simp [Outcome.andThen] at h
    | some v =>
      rw [hshl] at h
      dsimp only at h
      rcases shlOne_some _ _ hshl with ⟨he, hv⟩ | ⟨he, hv⟩
      · subst hv
        have hres : vectorResize s.mWriteBuffer (toSizeT ((2 : Int) ^ ((s.mWritePos + buffer.length) % sizeModulus)))
            = some (s.mWriteBuffer.take (2 ^ ((s.mWritePos + buffer.length) % sizeModulus))
                ++ List.replicate (2 ^ ((s.mWritePos + buffer.length) % sizeModulus)
                    - s.mWriteBuffer.length) 0) := by
          rw [toSizeT_two_pow _ he]
          unfold vectorResize
          rw [if_neg (by have := two_pow_le_maxSize _ he; omega)]
        rw [hres] at h
        simp only [Outcome.andThen] at h
        split at h
        · rename_i hfit
          injection h with hn hs
          subst hs
          simp only [List.length_append, List.length_take, List.length_replicate] at hfit
          have hpow30 : 2 ^ ((s.mWritePos + buffer.length) % sizeModulus) ≤ 2 ^ 30 :=
            Nat.pow_le_pow_right (by decide) (by omega)
          have h30 : (2 : Nat) ^ 30 = 1073741824 := by norm_num
          have hmod : sizeModulus = 18446744073709551616 := by decide
          have he2 : (s.mWritePos + buffer.length) % sizeModulus
              = s.mWritePos + buffer.length := by
            apply Nat.mod_eq_of_lt
            omega
          rw [he2] at hfit hpow30 ⊢
          have hself := lt_two_pow_self (s.mWritePos + buffer.length)
          have htake : s.mWriteBuffer.take (2 ^ (s.mWritePos + buffer.length))
              = s.mWriteBuffer := List.take_of_length_le (by omega)
          have hfit2 : s.mWritePos + buffer.length
              ≤ (s.mWriteBuffer
                  ++ List.replicate (2 ^ (s.mWritePos + buffer.length)
                      - s.mWriteBuffer.length) 0).length := by
            simp only [List.length_append, List.length_replicate]
            omega
          rw [htake]
          generalize hv : s.mWriteBuffer
              ++ List.replicate (2 ^ (s.mWritePos + buffer.length) - s.mWriteBuffer.length) 0
            = v at hfit2 ⊢
          have hvlen : v.length = 2 ^ (s.mWritePos + buffer.length) := by
            rw [← hv]
            simp only [List.length_append, List.length_replicate]
            omega
          have hvtake : v.take s.mWritePos = s.mWriteBuffer.take s.mWritePos := by
            rw [← hv]
            exact List.take_append_of_le_length hpos
          refine ⟨hn.symm, rfl, ⟨?_, ?_⟩, ?_, ?_, ?_, rfl, rfl⟩
          · show s.mWritePos + buffer.length ≤ List.length _
            rw [memcpy_length _ _ _ hfit2]
            exact hfit2
          · show List.length _ ≤ vectorMaxSize
            rw [memcpy_length _ _ _ hfit2, hvlen]
            unfold vectorMaxSize
            omega
          · show List.take _ (_ ++ _ ++ _) = _
            rw [memcpy_take _ _ _ hfit2, hvtake]
          · exact memcpy_drop_take _ _ _ hfit2
          · show _ ≤ List.length (_ ++ _ ++ _)
            rw [memcpy_length _ _ _ hfit2, hvlen]
            omega
        · cases h
      · subst hv
        have hres : vectorResize s.mWriteBuffer (toSizeT (-(2 : Int) ^ 31)) = none := by
          unfold vectorResize
          rw [if_pos (by decide)]
        rw [hres] at h
        simp [Outcome.andThen] at h
  · rw [if_neg hgrow] at h
    simp only [Outcome.andThen] at h
    have hfit : s.mWritePos + buffer.length ≤ s.mWriteBuffer.length := by omega
    rw [if_pos hfit] at h
    injection h with hn hs
    subst hs
    have hmod : sizeModulus = 18446744073709551616 := by decide
    have h63 : vectorMaxSize = 9223372036854775807 := by decide
    have he2 : (s.mWritePos + buffer.length) % sizeModulus = s.mWritePos + buffer.length := by
      apply Nat.mod_eq_of_lt
      omega
    refine ⟨hn.symm, he2, ⟨?_, ?_⟩, ?_, ?_, ?_, rfl, rfl⟩
    · show (s.mWritePos + buffer.length) % sizeModulus ≤ List.length _
      rw [he2, memcpy_length _ _ _ hfit]
      exact hfit
    · show List.length _ ≤ vectorMaxSize
      rw [memcpy_length _ _ _ hfit]
      exact hcap
    · exact memcpy_take _ _ _ hfit
    · exact memcpy_drop_take _ _ _ hfit
    · show _ ≤ List.length _
      rw [memcpy_length _ _ _ hfit]

/-- An append returns its size when the chunk fits the room left, or when the buffer has
to grow and cursor plus size is at most 30. -/
theorem bufferedWrite_returns (s : Impl) (buffer : List Byte) (hwf : s.WF)
    (h : buffer.length ≤ s.mWriteBuffer.length - s.mWritePos
      ∨ s.mWritePos + buffer.length ≤ 30) :
    ∃ s1, bufferedWrite s buffer = Outcome.ok buffer.length s1 := by
  have hrem := remainingWriteBufferSize_of_WF s hwf
  obtain ⟨hpos, hcap⟩ := hwf
  have hmod : sizeModulus = 18446744073709551616 := by decide
  unfold bufferedWrite
  rw [hrem]
  dsimp only
  by_cases hgrow : buffer.length > s.mWriteBuffer.length - s.mWritePos
  · have hsmall : s.mWritePos + buffer.length ≤ 30 := by omega
    have he2 : (s.mWritePos + buffer.length) % sizeModulus
        = s.mWritePos + buffer.length := by
      apply Nat.mod_eq_of_lt
      omega
    have hshl : shlOne (s.mWritePos + buffer.length)
        = some ((2 : Int) ^ (s.mWritePos + buffer.length)) := by
      unfold shlOne
      rw [if_pos (by omega)]
    have hres : vectorResize s.mWriteBuffer
          (toSizeT ((2 : Int) ^ (s.mWritePos + buffer.length)))
        = some (s.mWriteBuffer.take (2 ^ (s.mWritePos + buffer.length))
            ++ List.replicate (2 ^ (s.mWritePos + buffer.length) - s.mWriteBuffer.length) 0) := by
      rw [toSizeT_two_pow _ (by omega)]
      unfold vectorResize
      rw [if_neg (by have := two_pow_le_maxSize (s.mWritePos + buffer.length) (by omega); omega)]
    rw [if_pos hgrow, he2, hshl]
    dsimp only
    rw [hres]
    simp only [Outcome.andThen]
    have hself := lt_two_pow_self (s.mWritePos + buffer.length)
    rw [if_pos (by
      simp only [List.length_append, List.length_take, List.length_replicate]
      omega)]
    exact ⟨_, rfl⟩
  · rw [if_neg hgrow]
    simp only [Outcome.andThen]
    rw [if_pos (by omega)]
    exact ⟨_, rfl⟩

/-- A sequence of appends that returns leaves the concatenation of the chunks pending
behind what was pending before, and makes no transport call. -/
theorem writeAll_ok (chunks : List (List Byte)) :
    ∀ (s s1 : Impl), s.WF → writeAll s chunks = Outcome.ok () s1 →
      s1.WF ∧ s1.mWritePos = s.mWritePos + chunks.flatten.length
        ∧ s1.mWriteBuffer.take s1.mWritePos
            = s.mWriteBuffer.take s.mWritePos ++ chunks.flatten
        ∧ s1.trace = s.trace := by
  induction chunks with
  | nil =>
    intro s s1 hwf h
    injection h with _ h
    subst h
    exact ⟨hwf, by simp, by simp, rfl⟩
  | cons c cs ih =>
    intro s s1 hwf h
    simp only [writeAll, write] at h
    cases hw : bufferedWrite s c with
    | undefined => rw [hw] at h; cases h
    | fatal s2 => rw [hw] at h; cases h
    | ok n s2 =>
      rw [hw] at h
      simp only [Outcome.andThen] at h
      obtain ⟨_, hp2, hwf2, htake2, hdrop2, _, _, htr2⟩ := bufferedWrite_ok s s2 c n hwf hw
      obtain ⟨hwf1, hp1, htake1, htr1⟩ := ih s2 s1 hwf2 h
      refine ⟨hwf1, ?_, ?_, ?_⟩
      · rw [hp1, hp2]
        simp [Nat.add_assoc]
      · rw [htake1, hp2, List.take_add, htake2, hdrop2]
        simp
      · rw [htr1, htr2]

/-! # The claims -/

/-- C1 (flush before read).  For every transport and every stream state, `read`,
`loadStringInPlace` and `loadStringArrayInPlace` have no undefined behaviour and extend
the trace of transport calls only by rounds "accepted flush, then readback": each
readback directly follows a `writeFully` that was handed exactly the bytes `[0, cursor)`
with the cursor as length and was accepted, and the readback is issued with the cursor
at 0.  A refused flush is the last call of the operation, and when the flush at the start
of `read` is fatal, `read` ends in that state having issued no readback. -/
theorem flush_before_read (io : IOStream) (s : Impl) :
    (∀ size, (read io s size).Disciplined s)
      ∧ (∀ forOutput, (loadStringInPlace io forOutput s).Disciplined s)
      ∧ (loadStringArrayInPlace io s).Disciplined s
      ∧ (∀ size s1, commitWrite io s = Outcome.fatal s1 →
          read io s size = Outcome.fatal s1
            ∧ s1.trace = s.trace
                ++ [{ call := s.flushCall io, cursor := s.mWritePos, buffer := s.mWriteBuffer }]
            ∧ (s1.trace.drop s.trace.length).all (fun e => !e.isReadback) = true) := by
  refine ⟨read_disciplined io s, fun loc => loadStringInPlace_disciplined io loc s,
    loadStringArrayInPlace_disciplined io s, ?_⟩
  intro size s1 hfatal
  have hread : read io s size = (commitWrite io s).andThen _ := rfl
  rw [commitWrite_eq] at hfatal
  split at hfatal
  · cases hfatal
  · rename_i hacc
    injection hfatal with hs
    subst hs
    refine ⟨?_, rfl, ?_⟩
    · rw [read_eq, if_neg hacc]
    · simp [Event.isReadback, Impl.flushCall]

/-- C2 (buffer integrity) fails on the code.  On a fresh stream, appending a 4-byte chunk
and then a 60-byte chunk makes the second append evaluate `1 << 64` on an `int`, which is
undefined behaviour, and appending a single 31-byte chunk asks `resize` for
`2^64 - 2^31` bytes, which ends the process; in neither run does a flush hand the
transport the concatenation of the chunks. -/
theorem writeAll_growth_defect :
    writeAll Impl.fresh [List.replicate 4 1, List.replicate 60 2] = Outcome.undefined
      ∧ writeAll Impl.fresh [List.replicate 31 7] = Outcome.fatal Impl.fresh := by
  constructor <;> decide

/-- C3 (string round trip).  Let `L < 2^32` and `b` be `L` bytes.  If from the current
state on the transport takes every flush whole and its readbacks deliver the four
big-endian bytes of `L` followed by `b`, then `loadStringInPlace` returns normally and
stores in `*forOutput` a pointer to a newly allocated arena block of `L + 1` bytes whose
first `L` bytes are `b` and whose last byte is 0. -/
theorem loadStringInPlace_roundtrip (io : IOStream) (s : Impl) (forOutput : Loc) (L : Nat)
    (b : List Byte) (hL : L < 2 ^ 32) (hb : b.length = L)
    (hw : AcceptsWrites io s.calls) (hd : Delivers io s.calls (be32Bytes L ++ b)) :
    ∃ a s1 blk, loadStringInPlace io forOutput s = Outcome.ok (some a) s1
      ∧ a = s.mPool.length
      ∧ s1.mPool[a]? = some (Block.chars blk)
      ∧ blk.length = L + 1 ∧ blk.take L = b ∧ blk[L]? = some 0 := by
  subst hb
  have hserves : Serves io s (encodeString b ++ []) := by
    simpa [encodeString] using And.intro hw hd
  obtain ⟨s1, hload, _, hp, _, _⟩ := loadStringInPlace_serves io forOutput s b [] hserves hL
  refine ⟨s.mPool.length, s1, b ++ [0], hload, rfl, ?_, by simp, by simp, by simp⟩
  rw [hp, List.getElem?_set_self (by simp [Pool.storePtr_length])]
  rfl

/-- C3 at a concrete input: the string "hi" served by a pipe to a fresh stream. -/
theorem loadStringInPlace_roundtrip_witness :
    (2 < 2 ^ 32 ∧ ([104, 105] : List Byte).length = 2
      ∧ AcceptsWrites (pipe (be32Bytes 2 ++ [104, 105])) Impl.fresh.calls
      ∧ Delivers (pipe (be32Bytes 2 ++ [104, 105])) Impl.fresh.calls (be32Bytes 2 ++ [104, 105]))
    ∧ ∃ a s1 blk,
        loadStringInPlace (pipe (be32Bytes 2 ++ [104, 105])) Loc.caller Impl.fresh
          = Outcome.ok (some a) s1
        ∧ a = Impl.fresh.mPool.length
        ∧ s1.mPool[a]? = some (Block.chars blk)
        ∧ blk.length = 2 + 1 ∧ blk.take 2 = [104, 105] ∧ blk[2]? = some 0 :=
  ⟨⟨by decide, rfl, pipe_acceptsWrites _ _, pipe_delivers _⟩,
    loadStringInPlace_roundtrip (pipe (be32Bytes 2 ++ [104, 105])) Impl.fresh Loc.caller 2
      [104, 105] (by decide) rfl (pipe_acceptsWrites _ _) (pipe_delivers _)⟩

/-- C4 (string-array round trip).  Let `ss` be a non-empty list of byte strings, with
count and lengths below `2^32`.  If from the current state on the transport takes every
flush whole and its readbacks deliver the big-endian count followed by the wire forms of
the strings in order, then `loadStringArrayInPlace` returns normally and stores in
`*forOutput` a pointer to a new array of exactly `ss.length` pointers; slot `i` points at
a block holding string `i` followed by a zero byte, and the blocks were allocated in
index order right behind the array. -/
theorem loadStringArrayInPlace_roundtrip (io : IOStream) (s : Impl) (ss : List (List Byte))
    (hne : ss ≠ []) (hcount : ss.length < 2 ^ 32) (hlen : ∀ b ∈ ss, b.length < 2 ^ 32)
    (hw : AcceptsWrites io s.calls) (hd : Delivers io s.calls (encodeStringArray ss)) :
    ∃ a s1, loadStringArrayInPlace io s = Outcome.ok (some a) s1
      ∧ a = s.mPool.length
      ∧ s1.mPool.slotCount a = some ss.length
      ∧ (∀ i (hi : i < ss.length), s1.mPool.stringAt a i = some (ss[i] ++ [0]))
      ∧ s1.mPool = s.mPool
          ++ Block.ptrs ((List.range ss.length).map (fun i => some (a + 1 + i)))
          :: ss.map stringBlock := by
  have hserves : Serves io s (be32Bytes ss.length ++ (encodeStrings ss ++ [])) := by
    simpa [encodeStringArray] using And.intro hw hd
  obtain ⟨s1, hget, hs1, hp1, _, _⟩ :=
    getBe32_serves io s ss.length (encodeStrings ss ++ []) hserves hcount
  have hpos : ss.length ≠ 0 := fun h => hne (List.length_eq_zero.mp h)
  obtain ⟨s3, hloop, _, hp3, _⟩ :=
    loadStringsFrom_serves io s.mPool ss 0
      { s1 with mPool := s1.mPool ++ [Block.ptrs (List.replicate ss.length none)] } [] []
      (by simp [hp1]) rfl hs1 hlen
  have hrun : loadStringArrayInPlace io s = Outcome.ok (some s.mPool.length) s3 := by
    unfold loadStringArrayInPlace
    rw [hget]
    rw [hp1] at hloop
    simp only [Outcome.andThen, if_neg hpos, Pool.allocBlock, hp1, hloop]
  have hpool : s3.mPool = s.mPool
      ++ Block.ptrs ((List.range ss.length).map (fun i => some (s.mPool.length + 1 + i)))
      :: ss.map stringBlock := by
    simpa using hp3
  refine ⟨s.mPool.length, s3, hrun, rfl, ?_, ?_, hpool⟩
  · rw [hpool]
    unfold Pool.slotCount
    simp only [getElem?_length_append_cons]
    simp
  · intro i hi
    rw [hpool]
    exact Pool.stringAt_array s.mPool ss i hi

/-- C4 at the input of the spec: the strings "a", "bb" and "" served by a pipe to a fresh
stream. -/
theorem loadStringArrayInPlace_roundtrip_witness :
    (([[97], [98, 98], []] : List (List Byte)) ≠ []
      ∧ ([[97], [98, 98], []] : List (List Byte)).length < 2 ^ 32
      ∧ (∀ b ∈ ([[97], [98, 98], []] : List (List Byte)), b.length < 2 ^ 32)
      ∧ AcceptsWrites (pipe (encodeStringArray [[97], [98, 98], []])) Impl.fresh.calls
      ∧ Delivers (pipe (encodeStringArray [[97], [98, 98], []])) Impl.fresh.calls
          (encodeStringArray [[97], [98, 98], []]))
    ∧ ∃ a s1,
        loadStringArrayInPlace (pipe (encodeStringArray [[97], [98, 98], []])) Impl.fresh
          = Outcome.ok (some a) s1
        ∧ a = Impl.fresh.mPool.length
        ∧ s1.mPool.slotCount a = some ([[97], [98, 98], []] : List (List Byte)).length
        ∧ (∀ i (hi : i < ([[97], [98, 98], []] : List (List Byte)).length),
            s1.mPool.stringAt a i = some (([[97], [98, 98], []] : List (List Byte))[i] ++ [0]))
        ∧ s1.mPool = Impl.fresh.mPool
            ++ Block.ptrs
                ((List.range ([[97], [98, 98], []] : List (List Byte)).length).map
                  (fun i => some (a + 1 + i)))
            :: ([[97], [98, 98], []] : List (List Byte)).map stringBlock :=
  ⟨⟨by decide, by decide, by decide, pipe_acceptsWrites _ _, pipe_delivers _⟩,
    loadStringArrayInPlace_roundtrip (pipe (encodeStringArray [[97], [98, 98], []]))
      Impl.fresh [[97], [98, 98], []] (by decide) (by decide) (by decide)
      (pipe_acceptsWrites _ _) (pipe_delivers _)⟩

/-- C5 (flush postcondition).  In a state with cursor `c`, a flush whose `writeFully`
call reports `c` returns normally, has made exactly one transport call, which is
`writeFully` on the bytes `[0, c)` of the buffer with length `c`, and ends with the
cursor at 0; buffer and arena are untouched. -/
theorem commitWrite_postcondition (io : IOStream) (s : Impl)
    (h : io.writeFully s.calls (s.mWriteBuffer.take s.mWritePos) s.mWritePos
      = (s.mWritePos : Int)) :
    ∃ s1, commitWrite io s = Outcome.ok () s1
      ∧ s1.trace = s.trace
          ++ [{ call := Call.writeFully (s.mWriteBuffer.take s.mWritePos) s.mWritePos
                  (s.mWritePos : Int),
                cursor := s.mWritePos, buffer := s.mWriteBuffer }]
      ∧ (s.mWritePos ≤ s.mWriteBuffer.length →
          (s.mWriteBuffer.take s.mWritePos).length = s.mWritePos)
      ∧ s1.mWritePos = 0 ∧ s1.mWriteBuffer = s.mWriteBuffer ∧ s1.mPool = s.mPool := by
  refine ⟨s.flushed io, ?_, ?_, ?_, rfl, rfl, rfl⟩
  · rw [commitWrite_eq, h, if_pos rfl]
  · simp [Impl.flushCall, h]
  · intro hle
    simp [hle]

/-- C5 at a concrete input: three pending bytes flushed into a pipe. -/
theorem commitWrite_postcondition_witness :
    (pipe []).writeFully
        ({ mPool := [], mWritePos := 3, mWriteBuffer := [1, 2, 3, 0, 0, 0, 0, 0],
           trace := [] } : Impl).calls
        (([1, 2, 3, 0, 0, 0, 0, 0] : List Byte).take 3) 3 = ((3 : Nat) : Int)
    ∧ ∃ s1, commitWrite (pipe [])
          { mPool := [], mWritePos := 3, mWriteBuffer := [1, 2, 3, 0, 0, 0, 0, 0], trace := [] }
        = Outcome.ok () s1
      ∧ s1.trace = [] ++ [{ call := Call.writeFully (([1, 2, 3, 0, 0, 0, 0, 0] : List Byte).take 3)
                              3 ((3 : Nat) : Int),
                            cursor := 3, buffer := [1, 2, 3, 0, 0, 0, 0, 0] }]
      ∧ (3 ≤ ([1, 2, 3, 0, 0, 0, 0, 0] : List Byte).length →
          (([1, 2, 3, 0, 0, 0, 0, 0] : List Byte).take 3).length = 3)
      ∧ s1.mWritePos = 0 ∧ s1.mWriteBuffer = [1, 2, 3, 0, 0, 0, 0, 0] ∧ s1.mPool = [] :=
  ⟨rfl, commitWrite_postcondition (pipe [])
    { mPool := [], mWritePos := 3, mWriteBuffer := [1, 2, 3, 0, 0, 0, 0, 0], trace := [] } rfl⟩

/-- C6 (fatal on short write).  In a state whose cursor lies within the buffer, with the
transport answering in the range of `int`: the flush aborts exactly when `writeFully`
reports a count different from the cursor, it aborts in particular when the count is
smaller, it never has undefined behaviour, and at the abort the cursor and the buffer are
as before and the `writeFully` call is the only transport call the flush made. -/
theorem commitWrite_fatal_iff (io : IOStream) (s : Impl) (hwf : s.WF)
    (hint : IsCInt (io.writeFully s.calls (s.mWriteBuffer.take s.mWritePos) s.mWritePos)) :
    ((∃ s1, commitWrite io s = Outcome.fatal s1)
        ↔ io.writeFully s.calls (s.mWriteBuffer.take s.mWritePos) s.mWritePos
            ≠ (s.mWritePos : Int))
      ∧ (io.writeFully s.calls (s.mWriteBuffer.take s.mWritePos) s.mWritePos
            < (s.mWritePos : Int) → ∃ s1, commitWrite io s = Outcome.fatal s1)
      ∧ commitWrite io s ≠ Outcome.undefined
      ∧ (∀ s1, commitWrite io s = Outcome.fatal s1 →
          s1.mWritePos = s.mWritePos ∧ s1.mWriteBuffer = s.mWriteBuffer
            ∧ s1.trace = s.trace
                ++ [{ call := s.flushCall io, cursor := s.mWritePos,
                      buffer := s.mWriteBuffer }]) := by
  have hiff := toSizeT_ne_of_cint _ s.mWritePos hint (Nat.le_trans hwf.1 hwf.2)
  have hfatal : (∃ s1, commitWrite io s = Outcome.fatal s1)
      ↔ io.writeFully s.calls (s.mWriteBuffer.take s.mWritePos) s.mWritePos
          ≠ (s.mWritePos : Int) := by
    rw [← hiff, commitWrite_eq]
    constructor
    · rintro ⟨s1, h⟩ heq
      rw [if_pos heq] at h
      cases h
    · intro hne
      exact ⟨_, if_neg hne⟩
  refine ⟨hfatal, fun hlt => hfatal.mpr (by omega), ?_, ?_⟩
  · rw [commitWrite_eq]
    split <;> simp
  · intro s1 h
    rw [commitWrite_eq] at h
    split at h
    · cases h
    · injection h with h
      subst h
      exact ⟨rfl, rfl, rfl⟩

/-- C6 at a concrete input: three pending bytes, and a transport that reports two. -/
theorem commitWrite_fatal_iff_witness :
    (({ mPool := [], mWritePos := 3, mWriteBuffer := [1, 2, 3, 0, 0, 0, 0, 0],
        trace := [] } : Impl).WF
      ∧ IsCInt ((shortPipe []).writeFully [] [1, 2, 3] 3))
    ∧ (shortPipe []).writeFully [] [1, 2, 3] 3 < 3
    ∧ ∃ s1, commitWrite (shortPipe [])
        { mPool := [], mWritePos := 3, mWriteBuffer := [1, 2, 3, 0, 0, 0, 0, 0], trace := [] }
        = Outcome.fatal s1 :=
  ⟨⟨by decide, by decide⟩, by decide,
    (commitWrite_fatal_iff (shortPipe [])
      { mPool := [], mWritePos := 3, mWriteBuffer := [1, 2, 3, 0, 0, 0, 0, 0], trace := [] }
      (by decide) (by decide)).2.1 (by decide)⟩

/-- C7 (read result).  When the flush at the start of `read(buffer, size)` succeeds,
leaving state `s1`, the read makes exactly one more transport call, a `readback` for
exactly `size` bytes issued at cursor 0; if that readback reports success the read
returns `size` (with the delivered bytes in `buffer`), and the read aborts exactly when
the readback reports failure. -/
theorem read_result (io : IOStream) (s s1 : Impl) (size : Nat)
    (hflush : commitWrite io s = Outcome.ok () s1) :
    ∃ s2, s2.trace = s1.trace
          ++ [{ call := Call.readback size (io.readback s1.calls size), cursor := 0,
                buffer := s.mWriteBuffer }]
      ∧ (∀ data, io.readback s1.calls size = some data →
          read io s size = Outcome.ok (data.take size, size) s2)
      ∧ (io.readback s1.calls size = none → read io s size = Outcome.fatal s2)
      ∧ ((∃ s3, read io s size = Outcome.fatal s3) ↔ io.readback s1.calls size = none) := by
  obtain ⟨hs1, hacc⟩ := commitWrite_ok io s s1 hflush
  subst hs1
  refine ⟨(s.flushed io).log ((s.flushed io).readCall io size), rfl, ?_, ?_, ?_⟩
  · intro data hdata
    rw [read_eq, if_pos hacc, hdata]
  · intro hnone
    rw [read_eq, if_pos hacc, hnone]
  · rw [read_eq, if_pos hacc]
    cases hrb : io.readback (s.flushed io).calls size with
    | none => simp
    | some data => simp

/-- C7 at a concrete input: two bytes read from a pipe holding four. -/
theorem read_result_witness :
    commitWrite (pipe [1, 2, 3, 4]) Impl.fresh
        = Outcome.ok () (Impl.fresh.flushed (pipe [1, 2, 3, 4]))
    ∧ ∃ s2, s2.trace = (Impl.fresh.flushed (pipe [1, 2, 3, 4])).trace
          ++ [{ call := Call.readback 2
                  ((pipe [1, 2, 3, 4]).readback (Impl.fresh.flushed (pipe [1, 2, 3, 4])).calls 2),
                cursor := 0, buffer := Impl.fresh.mWriteBuffer }]
      ∧ (∀ data,
          (pipe [1, 2, 3, 4]).readback (Impl.fresh.flushed (pipe [1, 2, 3, 4])).calls 2
              = some data →
          read (pipe [1, 2, 3, 4]) Impl.fresh 2 = Outcome.ok (data.take 2, 2) s2)
      ∧ ((pipe [1, 2, 3, 4]).readback (Impl.fresh.flushed (pipe [1, 2, 3, 4])).calls 2 = none →
          read (pipe [1, 2, 3, 4]) Impl.fresh 2 = Outcome.fatal s2)
      ∧ ((∃ s3, read (pipe [1, 2, 3, 4]) Impl.fresh 2 = Outcome.fatal s3)
          ↔ (pipe [1, 2, 3, 4]).readback (Impl.fresh.flushed (pipe [1, 2, 3, 4])).calls 2
              = none) :=
  ⟨by decide, read_result (pipe [1, 2, 3, 4]) Impl.fresh _ 2 (by decide)⟩

/-- C8 (append result) fails on the code.  On a fresh stream a 32-byte append evaluates
`1 << 32` on an `int`, which is undefined behaviour, and a 31-byte append asks `resize`
for `2^64 - 2^31` bytes, which ends the process: neither append returns its size,
advances the cursor or stores the chunk. -/
theorem write_growth_defect :
    write Impl.fresh (List.replicate 32 9) = Outcome.undefined
      ∧ write Impl.fresh (List.replicate 31 9) = Outcome.fatal Impl.fresh := by
  constructor <;> decide

/-- C9 (empty array).  When the count read by `loadStringArrayInPlace` is 0, the call
returns with `*forOutput` null and the arena as it was, and what it added to the trace
is one `writeFully` (the flush) followed by the single successful 4-byte readback of the
count. -/
theorem loadStringArrayInPlace_empty (io : IOStream) (s s1 : Impl)
    (h : getBe32 io s = Outcome.ok 0 s1) :
    loadStringArrayInPlace io s = Outcome.ok none s1
      ∧ s1.mPool = s.mPool
      ∧ ∃ w r d, s1.trace = s.trace ++ [w, r] ∧ w.isReadback = false
          ∧ r.call = Call.readback 4 (some d) := by
  obtain ⟨hs1, d, hd⟩ := getBe32_ok io s s1 0 h
  refine ⟨?_, ?_, ?_⟩
  · unfold loadStringArrayInPlace
    rw [h]
    rfl
  · rw [hs1]
    rfl
  · refine ⟨{ call := s.flushCall io, cursor := s.mWritePos, buffer := s.mWriteBuffer },
      { call := (s.flushed io).readCall io 4, cursor := 0, buffer := s.mWriteBuffer }, d,
      ?_, rfl, ?_⟩
    · rw [hs1]
      simp
    · show Call.readback 4 (io.readback (s.flushed io).calls 4) = _
      rw [hd]

/-- C9 at a concrete input: a pipe delivering the count 0 to a fresh stream. -/
theorem loadStringArrayInPlace_empty_witness :
    getBe32 (pipe [0, 0, 0, 0]) Impl.fresh
        = Outcome.ok 0
            ((Impl.fresh.flushed (pipe [0, 0, 0, 0])).log
              ((Impl.fresh.flushed (pipe [0, 0, 0, 0])).readCall (pipe [0, 0, 0, 0]) 4))
    ∧ loadStringArrayInPlace (pipe [0, 0, 0, 0]) Impl.fresh
        = Outcome.ok none
            ((Impl.fresh.flushed (pipe [0, 0, 0, 0])).log
              ((Impl.fresh.flushed (pipe [0, 0, 0, 0])).readCall (pipe [0, 0, 0, 0]) 4)) :=
  ⟨by decide, (loadStringArrayInPlace_empty (pipe [0, 0, 0, 0]) Impl.fresh _ (by decide)).1⟩

/-- C10 (zero-length string).  When the length read by `loadStringInPlace` is 0, the call
returns with `*forOutput` pointing at a newly allocated arena block of exactly one byte,
which is 0; it issues no body read: what it added to the trace is one `writeFully` (the
flush) followed by the single successful 4-byte readback of the length. -/
theorem loadStringInPlace_empty (io : IOStream) (forOutput : Loc) (s s1 : Impl)
    (h : getBe32 io s = Outcome.ok 0 s1) :
    ∃ a s2, loadStringInPlace io forOutput s = Outcome.ok (some a) s2
      ∧ a = s.mPool.length
      ∧ s2.mPool[a]? = some (Block.chars [0])
      ∧ s2.trace = s1.trace
      ∧ ∃ w r d, s2.trace = s.trace ++ [w, r] ∧ w.isReadback = false
          ∧ r.call = Call.readback 4 (some d) := by
  obtain ⟨hs1, d, hd⟩ := getBe32_ok io s s1 0 h
  have hp : s1.mPool = s.mPool := by
    rw [hs1]
    rfl
  refine ⟨s.mPool.length,
    { s1 with
      mPool :=
        ((s.mPool ++ [Block.chars [0]]).storePtr forOutput (some s.mPool.length)).set
          s.mPool.length (Block.chars [0]) },
    ?_, rfl, ?_, rfl, ?_⟩
  · unfold loadStringInPlace
    rw [h]
    simp only [Outcome.andThen, Pool.allocBlock, hp, gt_iff_lt, Nat.lt_irrefl, if_false]
    rfl
  · rw [List.getElem?_set_self (by simp [Pool.storePtr_length])]
  · refine ⟨{ call := s.flushCall io, cursor := s.mWritePos, buffer := s.mWriteBuffer },
      { call := (s.flushed io).readCall io 4, cursor := 0, buffer := s.mWriteBuffer }, d,
      ?_, rfl, ?_⟩
    · rw [hs1]
      simp
    · show Call.readback 4 (io.readback (s.flushed io).calls 4) = _
      rw [hd]

/-- C10 at a concrete input: a pipe delivering the length 0 to a fresh stream. -/
theorem loadStringInPlace_empty_witness :
    getBe32 (pipe [0, 0, 0, 0]) Impl.fresh
        = Outcome.ok 0
            ((Impl.fresh.flushed (pipe [0, 0, 0, 0])).log
              ((Impl.fresh.flushed (pipe [0, 0, 0, 0])).readCall (pipe [0, 0, 0, 0]) 4))
    ∧ ∃ a s2, loadStringInPlace (pipe [0, 0, 0, 0]) Loc.caller Impl.fresh
          = Outcome.ok (some a) s2
        ∧ a = Impl.fresh.mPool.length
        ∧ s2.mPool[a]? = some (Block.chars [0])
        ∧ s2.trace
            = ((Impl.fresh.flushed (pipe [0, 0, 0, 0])).log
                ((Impl.fresh.flushed (pipe [0, 0, 0, 0])).readCall (pipe [0, 0, 0, 0]) 4)).trace
        ∧ ∃ w r d, s2.trace = Impl.fresh.trace ++ [w, r] ∧ w.isReadback = false
            ∧ r.call = Call.readback 4 (some d) :=
  ⟨by decide,
    loadStringInPlace_empty (pipe [0, 0, 0, 0]) Loc.caller Impl.fresh
      ((Impl.fresh.flushed (pipe [0, 0, 0, 0])).log
        ((Impl.fresh.flushed (pipe [0, 0, 0, 0])).readCall (pipe [0, 0, 0, 0]) 4))
      (by decide)⟩


/-! # Lemmas on frames and reachable states -/

theorem keepsBuffer_refl {α : Type} (a : α) (s s1 : Impl)
    (hb : s1.mWriteBuffer = s.mWriteBuffer) (hp : s1.mWritePos = s.mWritePos) :
    (Outcome.ok a s1).KeepsBuffer s :=
  ⟨hb, Or.inl hp⟩

theorem keepsBuffer_congr {α : Type} (s t : Impl) (o : Outcome α)
    (hb : s.mWriteBuffer = t.mWriteBuffer) (hp : s.mWritePos = t.mWritePos)
    (ho : o.KeepsBuffer s) : o.KeepsBuffer t := by
  cases o with
  | undefined => trivial
  | fatal s1 => simpa [Outcome.KeepsBuffer, hb, hp] using ho
  | ok a s1 => simpa [Outcome.KeepsBuffer, hb, hp] using ho

theorem keepsBuffer_andThen {α β : Type} (s : Impl) (o : Outcome α)
    (k : α → Impl → Outcome β) (ho : o.KeepsBuffer s)
    (hk : ∀ a s1, (k a s1).KeepsBuffer s1) : (o.andThen k).KeepsBuffer s := by
  cases o with
  | undefined => trivial
  | fatal s1 => exact ho
  | ok a s1 =>
    obtain ⟨hb1, hp1⟩ := ho
    have h2 := hk a s1
    simp only [Outcome.andThen]
    cases hres : k a s1 with
    | undefined => trivial
    | fatal s2 =>
      rw [hres] at h2
      obtain ⟨hb2, hp2⟩ := h2
      exact ⟨hb2.trans hb1, by rcases hp2 with h | h <;> rcases hp1 with h1 | h1 <;> omega⟩
    | ok b s2 =>
      rw [hres] at h2
      obtain ⟨hb2, hp2⟩ := h2
      exact ⟨hb2.trans hb1, by rcases hp2 with h | h <;> rcases hp1 with h1 | h1 <;> omega⟩

theorem commitWrite_keeps (io : IOStream) (s : Impl) : (commitWrite io s).KeepsBuffer s := by
  rw [commitWrite_eq]
  split
  · exact ⟨rfl, Or.inr rfl⟩
  · exact ⟨rfl, Or.inl rfl⟩

theorem read_keeps (io : IOStream) (s : Impl) (size : Nat) :
    (read io s size).KeepsBuffer s := by
  rw [read_eq]
  split
  · split
    · exact ⟨rfl, Or.inr rfl⟩
    · exact ⟨rfl, Or.inr rfl⟩
  · exact ⟨rfl, Or.inl rfl⟩

theorem getBe32_keeps (io : IOStream) (s : Impl) : (getBe32 io s).KeepsBuffer s :=
  keepsBuffer_andThen s _ _ (read_keeps io s 4)
    (fun _ s1 => keepsBuffer_refl _ s1 s1 rfl rfl)

theorem loadStringInPlace_keeps (io : IOStream) (forOutput : Loc) (s : Impl) :
    (loadStringInPlace io forOutput s).KeepsBuffer s := by
  refine keepsBuffer_andThen s _ _ (getBe32_keeps io s) (fun len s1 => ?_)
  dsimp only
  split
  · refine keepsBuffer_congr _ s1 _ rfl rfl ?_
    exact keepsBuffer_andThen _ _ _ (read_keeps io _ len)
      (fun _ s4 => keepsBuffer_refl _ s4 _ rfl rfl)
  · exact keepsBuffer_refl _ s1 _ rfl rfl

theorem loadStringsFrom_keeps (io : IOStream) (arr : Nat) :
    ∀ (n i : Nat) (s : Impl), (loadStringsFrom io arr n i s).KeepsBuffer s
  | 0, _, s => keepsBuffer_refl _ s s rfl rfl
  | n + 1, i, s =>
    keepsBuffer_andThen s _ _ (loadStringInPlace_keeps io _ s)
      (fun _ s1 => loadStringsFrom_keeps io arr n (i + 1) s1)

theorem loadStringArrayInPlace_keeps (io : IOStream) (s : Impl) :
    (loadStringArrayInPlace io s).KeepsBuffer s := by
  refine keepsBuffer_andThen s _ _ (getBe32_keeps io s) (fun count s1 => ?_)
  dsimp only
  split
  · exact keepsBuffer_refl _ s1 _ rfl rfl
  · refine keepsBuffer_congr _ s1 _ rfl rfl ?_
    exact keepsBuffer_andThen _ _ _ (loadStringsFrom_keeps io _ count 0 _)
      (fun _ s3 => keepsBuffer_refl _ s3 _ rfl rfl)

theorem keepsBuffer_wf {α : Type} (s s1 : Impl) (o : Outcome α) (hwf : s.WF)
    (ho : o.KeepsBuffer s) (hs : o.state? = some s1) : s1.WF := by
  obtain ⟨h1, h2⟩ := hwf
  cases o with
  | undefined => cases hs
  | fatal s2 =>
    injection hs with hs
    subst hs
    obtain ⟨hb, hp⟩ := ho
    unfold Impl.WF
    rw [hb]
    exact ⟨by rcases hp with h | h <;> omega, h2⟩
  | ok a s2 =>
    injection hs with hs
    subst hs
    obtain ⟨hb, hp⟩ := ho
    unfold Impl.WF
    rw [hb]
    exact ⟨by rcases hp with h | h <;> omega, h2⟩

theorem alloc_frame (s : Impl) (bytes : Nat) :
    (alloc s bytes).2.mWriteBuffer = s.mWriteBuffer ∧ (alloc s bytes).2.mWritePos = s.mWritePos
      ∧ (alloc s bytes).2.trace = s.trace := by
  unfold alloc
  split <;> exact ⟨rfl, rfl, rfl⟩

/-- Every reachable state has its cursor within the buffer. -/
theorem reachable_wf (io : IOStream) (s : Impl) (h : Reachable io s) : s.WF := by
  induction h with
  | fresh => exact Impl.fresh_WF
  | byAlloc s bytes _ ih =>
    obtain ⟨hb, hp, _⟩ := alloc_frame s bytes
    unfold Impl.WF
    rw [hb, hp]
    exact ih
  | byWrite s s1 buffer n _ hw ih => exact (bufferedWrite_ok s s1 buffer n ih hw).2.2.1
  | byCommitWrite s s1 _ hc ih =>
    exact keepsBuffer_wf s s1 _ ih (commitWrite_keeps io s) (by rw [hc]; rfl)
  | byRead s s1 size r _ hr ih =>
    exact keepsBuffer_wf s s1 _ ih (read_keeps io s size) (by rw [hr]; rfl)
  | byLoadString s s1 loc p _ hl ih =>
    exact keepsBuffer_wf s s1 _ ih (loadStringInPlace_keeps io loc s) (by rw [hl]; rfl)
  | byLoadStringArray s s1 p _ hl ih =>
    exact keepsBuffer_wf s s1 _ ih (loadStringArrayInPlace_keeps io s) (by rw [hl]; rfl)


theorem write_empty (s : Impl) (hwf : s.WF) : write s [] = Outcome.ok 0 s := by
  have hrem := remainingWriteBufferSize_of_WF s hwf
  obtain ⟨hpos, hcap⟩ := hwf
  have hmod : sizeModulus = 18446744073709551616 := by decide
  have h63 : vectorMaxSize = 9223372036854775807 := by decide
  unfold write bufferedWrite
  rw [hrem]
  dsimp only
  rw [if_neg (by simp)]
  simp only [Outcome.andThen, List.length_nil, Nat.add_zero]
  rw [if_pos hpos, Nat.mod_eq_of_lt (by omega)]
  simp

/-- Every state an append ends in has the trace it started with. -/
theorem bufferedWrite_trace (s s1 : Impl) (buffer : List Byte)
    (h : (bufferedWrite s buffer).state? = some s1) : s1.trace = s.trace := by
  unfold bufferedWrite at h
  dsimp only at h
  split at h
  · split at h
    · cases h
    · split at h
      · simp only [Outcome.andThen, Outcome.state?] at h
        injection h with h
        rw [← h]
      · simp only [Outcome.andThen] at h
        split at h
        · simp only [Outcome.state?] at h
          injection h with h
          rw [← h]
        · cases h
  · simp only [Outcome.andThen] at h
    split at h
    · simp only [Outcome.state?] at h
      injection h with h
      rw [← h]
    · cases h

theorem writeAll_trace (chunks : List (List Byte)) :
    ∀ (s s1 : Impl), (writeAll s chunks).state? = some s1 → s1.trace = s.trace := by
  induction chunks with
  | nil =>
    intro s s1 h
    simp only [writeAll, Outcome.state?] at h
    injection h with h
    rw [← h]
  | cons c cs ih =>
    intro s s1 h
    simp only [writeAll, write] at h
    cases hw : bufferedWrite s c with
    | undefined => rw [hw] at h; cases h
    | fatal s2 =>
      rw [hw] at h
      simp only [Outcome.andThen, Outcome.state?] at h
      injection h with h
      subst h
      exact bufferedWrite_trace s s2 c (by rw [hw]; rfl)
    | ok n s2 =>
      rw [hw] at h
      simp only [Outcome.andThen] at h
      rw [ih s2 s1 h]
      exact bufferedWrite_trace s s2 c (by rw [hw]; rfl)


theorem flushFirst_writes_are_flushes : ∀ (evs : List Event), FlushFirst evs →
    ∀ e ∈ evs, e.isWriteFully = true → e.IsFlush
  | [], _, e, he, _ => by cases he
  | [w], h, e, he, _ => by
    rw [List.mem_singleton] at he
    subst he
    exact h.1
  | w :: r :: rest, h, e, he, hw => by
    rcases List.mem_cons.mp he with h1 | h1
    · subst h1
      exact h.1.1
    · rcases List.mem_cons.mp h1 with h2 | h2
      · subst h2
        have hr := h.1.2.2
        unfold Event.IsReadAtZero at hr
        unfold Event.isWriteFully at hw
        split at hw
        · rename_i hc
          rw [hc] at hr
          exact hr.elim
        · cases hw
      · exact flushFirst_writes_are_flushes rest h.2 e h2 hw

theorem disciplined_writes_are_flushes {α : Type} (s s1 : Impl) (o : Outcome α)
    (ho : o.Disciplined s) (hs : o.state? = some s1)
    (hinv : ∀ e ∈ s.trace, e.isWriteFully = true → e.IsFlush) :
    ∀ e ∈ s1.trace, e.isWriteFully = true → e.IsFlush := by
  have key : ∃ evs, s1.trace = s.trace ++ evs ∧ FlushFirst evs := by
    cases o with
    | undefined => cases hs
    | fatal s2 =>
      injection hs with hs
      subst hs
      exact ho
    | ok a s2 =>
      injection hs with hs
      subst hs
      obtain ⟨evs, h1, h2⟩ := ho
      exact ⟨evs, h1, h2.flushFirst⟩
  obtain ⟨evs, h1, h2⟩ := key
  intro e he hw
  rw [h1] at he
  rcases List.mem_append.mp he with h | h
  · exact hinv e h hw
  · exact flushFirst_writes_are_flushes evs h2 e h hw

theorem commitWrite_disciplined (io : IOStream) (s : Impl) :
    ∀ s1, (commitWrite io s).state? = some s1 →
      s1.trace = s.trace
        ++ [{ call := s.flushCall io, cursor := s.mWritePos, buffer := s.mWriteBuffer }] := by
  intro s1 h
  rw [commitWrite_eq] at h
  split at h
  · injection h with h
    rw [← h]
    rfl
  · injection h with h
    rw [← h]
    rfl

/-- In a reachable state every `writeFully` on the trace was a flush: it was handed the
bytes `[0, cursor)` of the write buffer of that moment. -/
theorem reachable_writes_are_flushes (io : IOStream) (s : Impl) (h : Reachable io s) :
    ∀ e ∈ s.trace, e.isWriteFully = true → e.IsFlush := by
  induction h with
  | fresh =>
    intro e he
    cases he
  | byAlloc s bytes _ ih =>
    rw [(alloc_frame s bytes).2.2]
    exact ih
  | byWrite s s1 buffer n _ hw ih =>
    rw [bufferedWrite_trace s s1 buffer (by
      unfold write at hw
      rw [hw]
      rfl)]
    exact ih
  | byCommitWrite s s1 _ hc ih =>
    rw [commitWrite_disciplined io s s1 (by rw [hc]; rfl)]
    intro e he hw
    rcases List.mem_append.mp he with h | h
    · exact ih e h hw
    · rw [List.mem_singleton] at h
      subst h
      exact ⟨rfl, rfl⟩
  | byRead s s1 size r _ hr ih =>
    exact disciplined_writes_are_flushes s s1 _ (read_disciplined io s size)
      (by rw [hr]; rfl) ih
  | byLoadString s s1 loc p _ hl ih =>
    exact disciplined_writes_are_flushes s s1 _
      (loadStringInPlace_disciplined io loc s) (by rw [hl]; rfl) ih
  | byLoadStringArray s s1 p _ hl ih =>
    exact disciplined_writes_are_flushes s s1 _
      (loadStringArrayInPlace_disciplined io s) (by rw [hl]; rfl) ih

theorem bufferedWrite_fatal (s s1 : Impl) (buffer : List Byte)
    (h : bufferedWrite s buffer = Outcome.fatal s1) : s1 = s := by
  unfold bufferedWrite at h
  dsimp only at h
  split at h
  · split at h
    · cases h
    · split at h
      · simp only [Outcome.andThen] at h
        injection h with h
        exact h.symm
      · simp only [Outcome.andThen] at h
        split at h <;> cases h
  · simp only [Outcome.andThen] at h
    split at h <;> cases h


theorem toSizeT_eq_zero (w : Int) (hw : IsCInt w) : toSizeT w = toSizeT ((0 : Nat) : Int) ↔ w = 0 := by
  unfold IsCInt at hw
  unfold toSizeT
  have h2 : ((2 : Int) ^ 64) = 18446744073709551616 := by norm_num
  have h3 : ((2 : Int) ^ 31) = 2147483648 := by norm_num
  rw [h2]
  rw [h3] at hw
  omega

/-- The flush of a state with nothing pending. -/
theorem commitWrite_nothing_pending (io : IOStream) (t : Impl) (h : t.mWritePos = 0) :
    commitWrite io t =
      if toSizeT (io.writeFully t.calls [] 0) = toSizeT ((0 : Nat) : Int) then
        Outcome.ok () (t.log (Call.writeFully [] 0 (io.writeFully t.calls [] 0)))
      else Outcome.fatal (t.log (Call.writeFully [] 0 (io.writeFully t.calls [] 0))) := by
  rw [commitWrite_eq]
  unfold Impl.flushed Impl.flushCall
  simp only [h, List.take_zero]
  split
  · congr 1
    cases t
    simp only [Impl.log] at *
    simp [h]
  · rfl

/-- The growing append: with cursor plus size at most 30 the buffer gets exactly
`2 ^ (cursor + size)` bytes and the append returns. -/
theorem bufferedWrite_grows (s : Impl) (buffer : List Byte)
    (hgrow : buffer.length > remainingWriteBufferSize s)
    (hsmall : s.mWritePos + buffer.length ≤ 30) :
    ∃ s1, bufferedWrite s buffer = Outcome.ok buffer.length s1
      ∧ s1.mWriteBuffer.length = 2 ^ (s.mWritePos + buffer.length)
      ∧ s1.mWritePos = s.mWritePos + buffer.length := by
  have hmod : sizeModulus = 18446744073709551616 := by decide
  have he2 : (s.mWritePos + buffer.length) % sizeModulus = s.mWritePos + buffer.length := by
    apply Nat.mod_eq_of_lt
    omega
  have hshl : shlOne (s.mWritePos + buffer.length)
      = some ((2 : Int) ^ (s.mWritePos + buffer.length)) := by
    unfold shlOne
    rw [if_pos (by omega)]
  have hres : vectorResize s.mWriteBuffer
        (toSizeT ((2 : Int) ^ (s.mWritePos + buffer.length)))
      = some (s.mWriteBuffer.take (2 ^ (s.mWritePos + buffer.length))
          ++ List.replicate (2 ^ (s.mWritePos + buffer.length) - s.mWriteBuffer.length) 0) := by
    rw [toSizeT_two_pow _ (by omega)]
    unfold vectorResize
    rw [if_neg (by have := two_pow_le_maxSize (s.mWritePos + buffer.length) (by omega); omega)]
  have hself := lt_two_pow_self (s.mWritePos + buffer.length)
  generalize hv : s.mWriteBuffer.take (2 ^ (s.mWritePos + buffer.length))
      ++ List.replicate (2 ^ (s.mWritePos + buffer.length) - s.mWriteBuffer.length) 0 = v
    at hres
  have hvlen : v.length = 2 ^ (s.mWritePos + buffer.length) := by
    rw [← hv]
    simp only [List.length_append, List.length_take, List.length_replicate]
    omega
  have hfit : s.mWritePos + buffer.length ≤ v.length := by omega
  unfold bufferedWrite
  dsimp only
  rw [if_pos hgrow, he2, hshl]
  dsimp only
  rw [hres]
  simp only [Outcome.andThen]
  rw [if_pos hfit]
  refine ⟨_, rfl, ?_, he2⟩
  show List.length (_ ++ _ ++ _) = _
  rw [memcpy_length _ _ _ hfit, hvlen]


/-! # The claims, continued -/

/-- C11 (zero-size allocate).  `alloc(ptrAddr, 0)` stores null in `*ptrAddr` and leaves
the whole state, the arena included, as it was.  For every `bytes > 0`, `alloc` stores
the pointer returned by one arena allocation: the arena gains exactly one block, of
`bytes` bytes, `*ptrAddr` points at it, and nothing else of the state changes. -/
theorem alloc_zero_and_positive (s : Impl) :
    alloc s 0 = (none, s)
      ∧ ∀ bytes, 0 < bytes →
          (alloc s bytes).1
              = some (s.mPool.allocBlock (Block.chars (List.replicate bytes 0))).1
            ∧ (alloc s bytes).2
              = { s with mPool := (s.mPool.allocBlock (Block.chars (List.replicate bytes 0))).2 }
            ∧ (alloc s bytes).2.mPool = s.mPool ++ [Block.chars (List.replicate bytes 0)]
            ∧ (List.replicate bytes (0 : Byte)).length = bytes
            ∧ (alloc s bytes).2.mPool[s.mPool.length]?
              = some (Block.chars (List.replicate bytes 0)) := by
  refine ⟨rfl, fun bytes hb => ?_⟩
  have hne : bytes ≠ 0 := by omega
  unfold alloc
  rw [if_neg hne]
  refine ⟨rfl, rfl, rfl, by simp, ?_⟩
  simp [Pool.allocBlock]

/-- C12 (zero-size append).  In every reachable state `write(buffer, 0)` returns 0 and
leaves the state exactly as it was: the cursor, the capacity and the contents of the
write buffer are unchanged, and no resize takes place. -/
theorem write_zero_noop (io : IOStream) (s : Impl) (h : Reachable io s) :
    write s [] = Outcome.ok 0 s
      ∧ ¬ (([] : List Byte).length > remainingWriteBufferSize s) := by
  have hwf := reachable_wf io s h
  refine ⟨write_empty s hwf, ?_⟩
  simp

/-- C12 at a concrete input: the state reached by appending three bytes. -/
theorem write_zero_noop_witness :
    Reachable (pipe [])
        { mPool := [], mWritePos := 3, mWriteBuffer := [1, 2, 3, 0, 0, 0, 0, 0], trace := [] }
    ∧ write { mPool := [], mWritePos := 3, mWriteBuffer := [1, 2, 3, 0, 0, 0, 0, 0], trace := [] }
          []
        = Outcome.ok 0
            { mPool := [], mWritePos := 3, mWriteBuffer := [1, 2, 3, 0, 0, 0, 0, 0], trace := [] } :=
  ⟨Reachable.byWrite Impl.fresh _ [1, 2, 3] 3 Reachable.fresh (by decide),
    (write_zero_noop (pipe [])
      { mPool := [], mWritePos := 3, mWriteBuffer := [1, 2, 3, 0, 0, 0, 0, 0], trace := [] }
      (Reachable.byWrite Impl.fresh _ [1, 2, 3] 3 Reachable.fresh (by decide))).1⟩

/-- C13 (append makes no transport call).  For every state and chunk, every state in
which `write` ends, by returning or by aborting, has the trace of transport calls it
started with, and so has every state in which a sequence of appends ends.  In a
reachable state every `writeFully` on the trace was issued by a flush, with exactly the
bytes `[0, cursor)` of the write buffer of that moment. -/
theorem write_no_transport_call (io : IOStream) (s : Impl) (buffer : List Byte) :
    (∀ s1, (write s buffer).state? = some s1 → s1.trace = s.trace)
      ∧ (∀ chunks s1, (writeAll s chunks).state? = some s1 → s1.trace = s.trace)
      ∧ (Reachable io s → ∀ e ∈ s.trace, e.isWriteFully = true → e.IsFlush) :=
  ⟨fun s1 h => bufferedWrite_trace s s1 buffer h,
    fun chunks s1 h => writeAll_trace chunks s s1 h,
    reachable_writes_are_flushes io s⟩

/-- C14 (write-buffer invariant) fails on the code.  A 3-byte append to a fresh stream
leaves cursor 3 and capacity 8.  A 28-byte append then finds too little room and triggers
growth: `1 << 31` is `INT_MIN`, so `resize` is asked for `2^64 - 2^31` bytes, more than
`max_size()`, and the process ends instead of the buffer getting room for the 31 bytes.
A 30-byte append in the same state also triggers growth and evaluates `1 << 33` on an
`int`, which is undefined behaviour: the code gives no capacity of at least cursor plus
size, and nothing keeps the cursor within the capacity afterwards. -/
theorem growth_breaks_invariant :
    writeAll Impl.fresh [[1, 2, 3]]
        = Outcome.ok ()
            { mPool := [], mWritePos := 3, mWriteBuffer := [1, 2, 3, 0, 0, 0, 0, 0], trace := [] }
      ∧ (List.replicate 28 (9 : Byte)).length
          > remainingWriteBufferSize
              { mPool := [], mWritePos := 3, mWriteBuffer := [1, 2, 3, 0, 0, 0, 0, 0],
                trace := [] }
      ∧ shlOne ((3 + 28) % sizeModulus) = some (-(2 : Int) ^ 31)
      ∧ toSizeT (-(2 : Int) ^ 31) > vectorMaxSize
      ∧ writeAll Impl.fresh [[1, 2, 3], List.replicate 28 9]
          = Outcome.fatal
              { mPool := [], mWritePos := 3, mWriteBuffer := [1, 2, 3, 0, 0, 0, 0, 0],
                trace := [] }
      ∧ (List.replicate 30 (9 : Byte)).length
          > remainingWriteBufferSize
              { mPool := [], mWritePos := 3, mWriteBuffer := [1, 2, 3, 0, 0, 0, 0, 0],
                trace := [] }
      ∧ writeAll Impl.fresh [[1, 2, 3], List.replicate 30 9] = Outcome.undefined := by
  refine ⟨?_, ?_, ?_, ?_, ?_, ?_, ?_⟩ <;> decide

/-- C15 (capacity is monotone) fails on the code.  With cursor 3 in a buffer of capacity
8, a 30-byte append has to resize and the new capacity is `1 << 33` on an `int`, which
has no defined value: the resize is not to a larger capacity (a shifter that masks the
count gives 2).  With cursor 4 in a buffer of capacity 16, the state a 4-byte append to
a fresh stream leaves, a 60-byte append resizes to `1 << 64`, equally undefined (a
masking shifter gives 1).  With cursor 3 and capacity 8,
a 28-byte append asks `resize` for `2^64 - 2^31` bytes, which `resize` refuses, ending the
process. -/
theorem growth_breaks_monotonicity :
    (shlOne ((3 + 30) % sizeModulus) = none
        ∧ write { mPool := [], mWritePos := 3, mWriteBuffer := [1, 2, 3, 0, 0, 0, 0, 0],
                  trace := [] } (List.replicate 30 9)
          = Outcome.undefined)
      ∧ (write Impl.fresh [1, 1, 1, 1]
          = Outcome.ok 4
              { mPool := [], mWritePos := 4,
                mWriteBuffer := [1, 1, 1, 1] ++ List.replicate 12 0, trace := [] }
        ∧ shlOne ((4 + 60) % sizeModulus) = none
        ∧ write { mPool := [], mWritePos := 4,
                  mWriteBuffer := [1, 1, 1, 1] ++ List.replicate 12 0, trace := [] }
              (List.replicate 60 2)
          = Outcome.undefined)
      ∧ (vectorResize [1, 2, 3, 0, 0, 0, 0, 0] (toSizeT (-(2 : Int) ^ 31)) = none
        ∧ write { mPool := [], mWritePos := 3, mWriteBuffer := [1, 2, 3, 0, 0, 0, 0, 0],
                  trace := [] } (List.replicate 28 9)
          = Outcome.fatal
              { mPool := [], mWritePos := 3, mWriteBuffer := [1, 2, 3, 0, 0, 0, 0, 0],
                trace := [] }) := by
  refine ⟨⟨?_, ?_⟩, ⟨?_, ?_, ?_⟩, ⟨?_, ?_⟩⟩ <;> decide

/-- C16 (observed growth formula).  Whenever `write(buffer, size)` finds
`size > remainingWriteBufferSize()` and cursor plus size is at most 30, the append
returns `size` and leaves the buffer with exactly `2 ^ (cursor + size)` bytes, whatever
its capacity was. -/
theorem growth_formula (s : Impl) (buffer : List Byte)
    (hgrow : buffer.length > remainingWriteBufferSize s)
    (hsmall : s.mWritePos + buffer.length ≤ 30) :
    ∃ s1, write s buffer = Outcome.ok buffer.length s1
      ∧ s1.mWriteBuffer.length = 2 ^ (s.mWritePos + buffer.length) := by
  obtain ⟨s1, hw, hlen, _⟩ := bufferedWrite_grows s buffer hgrow hsmall
  exact ⟨s1, hw, hlen⟩

/-- C16 at the input of the claim: the first append of 20 bytes to a fresh stream leaves
a capacity of 1,048,576 bytes. -/
theorem growth_formula_witness :
    ((List.replicate 20 (0 : Byte)).length > remainingWriteBufferSize Impl.fresh
      ∧ Impl.fresh.mWritePos + (List.replicate 20 (0 : Byte)).length ≤ 30)
    ∧ ∃ s1, write Impl.fresh (List.replicate 20 0) = Outcome.ok 20 s1
        ∧ s1.mWriteBuffer.length = 1048576 :=
  ⟨⟨by decide, by decide⟩,
    Exists.elim (growth_formula Impl.fresh (List.replicate 20 0) (by decide) (by decide))
      (fun s1 hs1 => ⟨s1, hs1.1, hs1.2.trans (by decide)⟩)⟩


/-- C17 (flush is idempotent).  Let a flush of `s` succeed, leaving `s1`, and let the
transport answer in the range of `int`.  Then the cursor of `s1` is 0, and a second
flush right away makes exactly one transport call, `writeFully` with no bytes and
length 0; it has no undefined behaviour, succeeds exactly when the transport reports 0,
and however it ends the cursor is 0 and the write buffer and the arena are as before.
Likewise a `read` in any state with nothing pending first issues a zero-length
`writeFully`; everything it issues after that is a readback, exactly one when the read
returns. -/
theorem flush_idempotent (io : IOStream) (s s1 : Impl)
    (hflush : commitWrite io s = Outcome.ok () s1)
    (hint : IsCInt (io.writeFully s1.calls [] 0)) :
    s1.mWritePos = 0
      ∧ (∀ s2, (commitWrite io s1).state? = some s2 →
          s2.trace = s1.trace
              ++ [{ call := Call.writeFully [] 0 (io.writeFully s1.calls [] 0), cursor := 0,
                    buffer := s1.mWriteBuffer }]
            ∧ s2.mWritePos = 0 ∧ s2.mWriteBuffer = s1.mWriteBuffer ∧ s2.mPool = s1.mPool)
      ∧ commitWrite io s1 ≠ Outcome.undefined
      ∧ ((∃ s2, commitWrite io s1 = Outcome.ok () s2) ↔ io.writeFully s1.calls [] 0 = 0)
      ∧ (∀ (t : Impl) (size : Nat), t.mWritePos = 0 →
          ∃ s2 rest, (read io t size).state? = some s2
            ∧ s2.trace = t.trace
                ++ { call := Call.writeFully [] 0 (io.writeFully t.calls [] 0), cursor := 0,
                     buffer := t.mWriteBuffer } :: rest
            ∧ rest.all (fun e => e.isReadback) = true
            ∧ (∀ r s3, read io t size = Outcome.ok r s3 → rest.length = 1)) := by
  have hpos : s1.mWritePos = 0 := by
    rw [(commitWrite_ok io s s1 hflush).1]
    rfl
  have hzero := toSizeT_eq_zero _ hint
  refine ⟨hpos, ?_, ?_, ?_, ?_⟩
  · intro s2 hs
    rw [commitWrite_nothing_pending io s1 hpos] at hs
    split at hs
    · injection hs with hs
      rw [← hs]
      exact ⟨by simp [Impl.log, hpos], hpos, rfl, rfl⟩
    · injection hs with hs
      rw [← hs]
      exact ⟨by simp [Impl.log, hpos], hpos, rfl, rfl⟩
  · rw [commitWrite_nothing_pending io s1 hpos]
    split <;> simp
  · rw [commitWrite_nothing_pending io s1 hpos, ← hzero]
    constructor
    · rintro ⟨s2, h⟩
      by_contra hne
      rw [if_neg hne] at h
      cases h
    · intro heq
      exact ⟨_, if_pos heq⟩
  · intro t size ht
    rw [read_eq]
    split
    · split
      · refine ⟨_, [Event.mk ((t.flushed io).readCall io size) 0 t.mWriteBuffer], rfl, ?_,
          rfl, fun _ _ _ => rfl⟩
        simp [Impl.flushCall, ht]
      · refine ⟨_, [Event.mk ((t.flushed io).readCall io size) 0 t.mWriteBuffer], rfl, ?_,
          rfl, fun _ _ _ => rfl⟩
        simp [Impl.flushCall, ht]
    · refine ⟨_, [], rfl, ?_, rfl, fun _ _ h => by cases h⟩
      simp [Impl.flushCall, ht]

/-- C17 at a concrete input: three pending bytes flushed into a pipe, then flushed
again. -/
theorem flush_idempotent_witness :
    (commitWrite (pipe [])
          { mPool := [], mWritePos := 3, mWriteBuffer := [1, 2, 3, 0, 0, 0, 0, 0], trace := [] }
        = Outcome.ok ()
            (({ mPool := [], mWritePos := 3, mWriteBuffer := [1, 2, 3, 0, 0, 0, 0, 0],
                trace := [] } : Impl).flushed (pipe []))
      ∧ IsCInt ((pipe []).writeFully
          (({ mPool := [], mWritePos := 3, mWriteBuffer := [1, 2, 3, 0, 0, 0, 0, 0],
              trace := [] } : Impl).flushed (pipe [])).calls [] 0))
    ∧ (({ mPool := [], mWritePos := 3, mWriteBuffer := [1, 2, 3, 0, 0, 0, 0, 0],
          trace := [] } : Impl).flushed (pipe [])).mWritePos = 0
    ∧ ((∃ s2, commitWrite (pipe [])
            (({ mPool := [], mWritePos := 3, mWriteBuffer := [1, 2, 3, 0, 0, 0, 0, 0],
                trace := [] } : Impl).flushed (pipe [])) = Outcome.ok () s2)
        ↔ (pipe []).writeFully
            (({ mPool := [], mWritePos := 3, mWriteBuffer := [1, 2, 3, 0, 0, 0, 0, 0],
                trace := [] } : Impl).flushed (pipe [])).calls [] 0 = 0) :=
  ⟨⟨by decide, by decide⟩,
    (flush_idempotent (pipe [])
      { mPool := [], mWritePos := 3, mWriteBuffer := [1, 2, 3, 0, 0, 0, 0, 0], trace := [] }
      _ (by decide) (by decide)).1,
    (flush_idempotent (pipe [])
      { mPool := [], mWritePos := 3, mWriteBuffer := [1, 2, 3, 0, 0, 0, 0, 0], trace := [] }
      _ (by decide) (by decide)).2.2.2.1⟩

end goldfish_vk
